import Mathlib

/-!
# Discorder: cell rendering helpers and the `MenuWindow` list widget

A shallow embedding of `src/display.go` (`HeightRequired`, `GenCellSlice`, `SetCells`,
`CreateHeader`, `CreateWindow`) and of `src/ui/menuwindow.go` (`MenuWindow` and its option
list), followed by theorems about them.

Conventions of the embedding

* A Go `string` is represented by the sequence of runes that `for _, ch := range str`
  yields (`String.toList`); `utf8.RuneCountInString` is the length of that sequence.
* A Go `int` is a 64-bit two's complement integer.  Values are carried in `ℤ`; the additions and
  subtractions of the source that can leave the 64-bit range go through `wrapInt`.
* A `float64` is represented by the rational number it denotes; every arithmetic result is
  rounded to the nearest representable value, ties to even (`roundFloat64`).
* `*MenuItem` pointers are addresses into a store (`MenuWindow.heap`); two slots of the option
  slice may hold the same address.  Nil pointers are not represented.
* An operation that can index a slice out of range returns `Option`; `none` is the Go panic.
* The terminal is represented by the calls of `termbox.SetCell`, in the order they are made
  (`CellWrite`).
-/

namespace Discorder

/-! ## Machine arithmetic -/

/-- The value of a Go `int` (64 bit, two's complement) after an overflowing operation whose
mathematical result is `z`. -/
def wrapInt (z : ℤ) : ℤ := (z + 2 ^ 63) % 2 ^ 64 - 2 ^ 63

/-- Round a rational to the nearest integer, ties to the even neighbour. -/
def roundHalfEven (x : ℚ) : ℤ :=
  let f := ⌊x⌋
  let r := x - f
  if r < 1 / 2 then f
  else if 1 / 2 < r then f + 1
  else if f % 2 = 0 then f else f + 1

/-- IEEE-754 binary64 rounding of a positive rational in the normal range: with `e` the binary
exponent of `q` (`2 ^ e ≤ q < 2 ^ (e + 1)`), the spacing of the representable numbers around `q`
is `2 ^ (e - 52)`, and `q` is rounded to the nearest multiple of it, ties to even. -/
def roundPos (q : ℚ) : ℚ :=
  let ulp : ℚ := 2 ^ (Int.log 2 q - 52)
  roundHalfEven (q / ulp) * ulp

/-- The `float64` nearest to the rational `q` (round to nearest, ties to even).  Overflow to
infinity and subnormal numbers are not represented: the quotients of two non-zero 64-bit
integers lie between `2 ^ (-64)` and `2 ^ 64`. -/
def roundFloat64 (q : ℚ) : ℚ :=
  if q = 0 then 0 else if q < 0 then - roundPos (-q) else roundPos q

/-- Slice indexing `s[i]` with a Go `int` index: `none` when out of range. -/
def index {α : Type} (s : List α) (i : ℤ) : Option α :=
  if i < 0 then none else s.get? i.toNat

/-! ## `display.go` -/

/-- `func HeightRequired(num, width int) int`:
`int(math.Ceil(float64(num) / float64(width)))`.  The two conversions and the division each
round to `float64`; `math.Ceil` and the conversion back to `int` are exact.  For `width = 0` the
Go quotient is an infinity or a NaN, whose conversion to `int` is implementation-defined; that
input is outside this embedding. -/
def HeightRequired (num width : ℤ) : ℤ :=
  ⌈roundFloat64 (roundFloat64 num / roundFloat64 width)⌉

/-- `termbox.Attribute` (a `uint16`). -/
abbrev Attribute := ℕ

/-- `termbox.ColorDefault`, the first constant of the `Attribute` enumeration. -/
def ColorDefault : Attribute := 0

/-- `type AttribPoint struct { fg, bg termbox.Attribute }`. -/
structure AttribPoint where
  fg : Attribute
  bg : Attribute
deriving DecidableEq, Repr

/-- `termbox.Cell`. -/
structure Cell where
  Ch : Char
  Fg : Attribute
  Bg : Attribute
deriving DecidableEq, Repr

instance : Inhabited Cell := ⟨⟨Char.ofNat 0, 0, 0⟩⟩

/-- `var ResetAttribPoint = AttribPoint{termbox.ColorDefault, termbox.ColorDefault}`. -/
def ResetAttribPoint : AttribPoint := ⟨ColorDefault, ColorDefault⟩

/-- The body of the `range` loop of `GenCellSlice`: `runes` are the runes still to visit,
`index` and `curAttribs` the loop variables, `cells` the slice being filled.  The store
`cells[index] = cell` panics (`none`) when `index` is out of range. -/
def GenCellSlice.loop (points : ℤ → Option AttribPoint) :
    List Char → ℕ → AttribPoint → List Cell → Option (List Cell)
  | [], _, _, cells => some cells
  | ch :: runes, index, curAttribs, cells =>
    let curAttribs := match points (index : ℤ) with
      | some newAttribs => newAttribs
      | none => curAttribs
    let cell : Cell := ⟨ch, curAttribs.fg, curAttribs.bg⟩
    if index < cells.length then
      GenCellSlice.loop points runes (index + 1) curAttribs (cells.set index cell)
    else none

/-- `func GenCellSlice(str string, points map[int]AttribPoint) []termbox.Cell`.  The map is
represented by its lookup function (`none` for an absent key). -/
def GenCellSlice (str : String) (points : ℤ → Option AttribPoint) : Option (List Cell) :=
  GenCellSlice.loop points str.toList 0 ResetAttribPoint
    (List.replicate str.toList.length default)

/-! ## `SetCells` -/

/-- One call `termbox.SetCell(x, y, ch, fg, bg)`: the column, the row and the cell written. -/
structure CellWrite where
  x : ℤ
  y : ℤ
  cell : Cell
deriving DecidableEq, Repr

/-- The `range` loop of `SetCells`: `x` and `y` are the cursor, `out` the calls of
`termbox.SetCell` made so far; the result is the list of calls and the returned integer.
`x` and `y` count cells and rows already visited, so `x++`, `y++` and `y + 1` are at most
the length of the slice plus one and do not overflow; the sums `x+startX` and `y+startY`
can. -/
def SetCells.loop (startX startY width height : ℤ) :
    List Cell → ℤ → ℤ → List CellWrite → List CellWrite × ℤ
  | [], _, y, out => (out, y + 1)
  | cell :: cells, x, y, out =>
    let out := out ++ [⟨wrapInt (x + startX), wrapInt (y + startY), cell⟩]
    let x := x + 1
    if x > width then
      let y := y + 1
      if height ≠ 0 ∧ y ≥ height then (out, y)
      else SetCells.loop startX startY width height cells 0 y out
    else SetCells.loop startX startY width height cells x y out

/-- `func SetCells(cells []termbox.Cell, startX, startY, width, height int) int`, returning the
calls of `termbox.SetCell` in the order they are made and the returned integer. -/
def SetCells (cells : List Cell) (startX startY width height : ℤ) : List CellWrite × ℤ :=
  SetCells.loop startX startY width height cells 0 0 []

/-! ## `CreateHeader` and `CreateWindow` -/

/-- Run the loop body `f` for every element of a list, in order, collecting what it produces;
`none` as soon as one run panics. -/
def mapOption {α β : Type} (f : α → Option β) : List α → Option (List β)
  | [] => some []
  | a :: l =>
    match f a with
    | none => none
    | some b => (mapOption f l).map (fun bs => b :: bs)

/-- The body of the loop of `CreateHeader` for the column `i`: the call of `termbox.SetCell`
it makes; the lookup `runeSlice[i-headerStartPos]` panics (`none`) when out of range. -/
def CreateHeader.cell (runeSlice : List Char) (headerStartPos headerLen i : ℤ) :
    Option CellWrite :=
  if i ≥ headerStartPos ∧ i < headerStartPos + headerLen then
    (index runeSlice (i - headerStartPos)).map
      (fun ch => ⟨i, 0, ⟨ch, ColorDefault, ColorDefault⟩⟩)
  else some ⟨i, 0, ⟨'=', ColorDefault, ColorDefault⟩⟩

/-- `func CreateHeader(header string)`; `sizeX` is the width that `termbox.Size()` reports.
The division is Go's, truncating toward zero.  With `sizeX` and the length in the range of
`int`, `headerStartPos` and `headerStartPos+headerLen` lie between `-2 ^ 62` and `2 ^ 63 - 1`,
so these sums do not overflow. -/
def CreateHeader (header : String) (sizeX : ℤ) : Option (List CellWrite) :=
  let headerLen : ℤ := header.toList.length
  let runeSlice := header.toList
  let headerStartPos := sizeX.tdiv 2 - headerLen.tdiv 2
  mapOption (fun i : ℕ => CreateHeader.cell runeSlice headerStartPos headerLen i)
    (List.range sizeX.toNat)

/-- The character that the body of the loops of `CreateWindow` chooses at `(curX, curY)`. -/
def CreateWindow.char (runeSlice : List Char) (headerStartPos headerLen width height
    curX curY : ℤ) : Option Char :=
  if curX ≥ headerStartPos ∧ curX < headerStartPos + headerLen ∧ curY = 0 then
    index runeSlice (curX - headerStartPos)
  else if curX = 0 ∨ curX = width then some '|'
  else if curY = 0 ∨ curY = height then some '-'
  else some ' '

/-- The inner loop of `CreateWindow`, `for curY := 0; curY <= height; curY++`, for one
`curX`. -/
def CreateWindow.column (runeSlice : List Char) (headerStartPos headerLen startX startY width
    height : ℤ) (color : Attribute) (curX : ℕ) : Option (List CellWrite) :=
  mapOption (fun curY : ℕ =>
      (CreateWindow.char runeSlice headerStartPos headerLen width height curX curY).map
        (fun ch => ⟨wrapInt (curX + startX), wrapInt (curY + startY),
          ⟨ch, ColorDefault, color⟩⟩))
    (List.range (height + 1).toNat)

/-- The outer loop of `CreateWindow`, `for curX := 0; curX <= width; curX++`: the calls of
`termbox.SetCell`, column by column.  For a `width` or `height` equal to the largest `int` the
Go loop condition never fails; there the lists are the calls of the first `2 ^ 63` rounds. -/
def CreateWindow.columns (title : String) (startX startY width height : ℤ)
    (color : Attribute) : Option (List (List CellWrite)) :=
  let headerLen : ℤ := title.toList.length
  let runeSlice := title.toList
  let headerStartPos := width.tdiv 2 - headerLen.tdiv 2
  mapOption (CreateWindow.column runeSlice headerStartPos headerLen startX startY width height
    color) (List.range (width + 1).toNat)

/-- `func CreateWindow(title string, startX, startY, width, height int, color
termbox.Attribute)`: the calls of `termbox.SetCell` in the order they are made. -/
def CreateWindow (title : String) (startX startY width height : ℤ) (color : Attribute) :
    Option (List CellWrite) :=
  (CreateWindow.columns title startX startY width height color).map List.flatten

/-! ## `ui/menuwindow.go` -/

/-- Address of a `MenuItem` object. -/
abbrev Ptr := ℕ

/-- `type MenuItem struct`.  `UserData interface{}` is an opaque payload (`none` is `nil`); the
field `matches` is spelled `matches_`. -/
structure MenuItem where
  Str : String
  Marked : Bool
  Highlighted : Bool
  Info : String
  UserData : Option ℕ
  matches_ : ℤ
deriving DecidableEq, Repr

/-- Modelled from the spec: the declaration of `Direction` and of its constants is not among
the sources; the spec gives the commands as up, down, jump-to-start and jump-to-end. -/
inductive Direction where
  | DirUp
  | DirDown
  | DirEnd
  | DirStart
deriving DecidableEq, Repr

/-- The fields of `type MenuWindow struct` that the list operations read or write, together
with the store of the `MenuItem` objects its pointers refer to (`heap`) and the first address
not yet allocated (`next`).  The layout and style fields are not represented. -/
structure MenuWindow where
  Options : List Ptr
  Highlighted : ℤ
  Dirty : Bool
  lastSearch : String
  heap : Ptr → MenuItem
  next : Ptr

/-- `func (mi MenuItemSlice) Less(a, b int) bool`, on the objects stored at the two slots. -/
def MenuItemSlice.Less (heap : Ptr → MenuItem) (a b : Ptr) : Bool :=
  decide ((heap a).matches_ < (heap b).matches_)

/-- What `sort.Sort` guarantees for a comparison that is a strict weak ordering: the result is
a rearrangement of the input in which no later element is less than an earlier one.  Nothing
is promised about the order of equal elements. -/
def SortContract (sortFn : (Ptr → Ptr → Bool) → List Ptr → List Ptr) : Prop :=
  ∀ (less : Ptr → Ptr → Bool) (l : List Ptr),
    (sortFn less l).Perm l ∧
    ((∀ a b, less a b = true → less b a = false) →
      (∀ a b c, less a b = false → less b c = false → less a c = false) →
      (sortFn less l).Pairwise (fun a b => less b a = false))

/-- A sorting function meeting `SortContract`: insertion sort. -/
def insertionSortFn (less : Ptr → Ptr → Bool) (l : List Ptr) : List Ptr :=
  l.insertionSort (fun a b => less b a = false)

/-- `func fieldsFunc(r rune) bool`. -/
def fieldsFunc (r : Char) : Bool := r == ' ' || r == '_'

/-- The loop of `strings.FieldsFunc`: `start` is the field being read (`none` when the last
rune was a separator or nothing was read yet), `spans` the fields completed so far. -/
def FieldsFunc.loop (f : Char → Bool) :
    List Char → Option (List Char) → List (List Char) → List (List Char)
  | [], none, spans => spans
  | [], some cur, spans => spans ++ [cur]
  | r :: rest, start, spans =>
    if f r then
      match start with
      | some cur => FieldsFunc.loop f rest none (spans ++ [cur])
      | none => FieldsFunc.loop f rest none spans
    else
      match start with
      | some cur => FieldsFunc.loop f rest (some (cur ++ [r])) spans
      | none => FieldsFunc.loop f rest (some [r]) spans

/-- `strings.FieldsFunc(s, f)`: split `s` at each run of runes satisfying `f`. -/
def FieldsFunc (s : List Char) (f : Char → Bool) : List (List Char) :=
  FieldsFunc.loop f s none []

/-- `strings.ToLower`, rune by rune; `lower` is `unicode.ToLower`. -/
def ToLower (lower : Char → Char) (s : List Char) : List Char := s.map lower

/-- `strings.Contains(s, substr)`: some suffix of `s` starts with `substr`. -/
def Contains (s substr : List Char) : Bool :=
  s.tails.any (fun t => substr.isPrefixOf t)

/-- The two nested loops of `FilteredOptions` that count the matching pairs of fields. -/
def countMatches (lower : Char → Char) (searchFields split : List (List Char)) : ℤ :=
  searchFields.foldl (fun matches_ searchField =>
    split.foldl (fun matches_ optionField =>
      if Contains (ToLower lower optionField) (ToLower lower searchField) then matches_ + 1
      else matches_) matches_) 0

/-- The loop `for _, option := range mw.Options` of `FilteredOptions`: it stores the score of
every option in its `matches` field (`matches_` here) and appends the options with a positive score. -/
def FilteredOptions.loop (lower : Char → Char) (searchFields : List (List Char)) :
    List Ptr → (Ptr → MenuItem) → List Ptr → List Ptr × (Ptr → MenuItem)
  | [], heap, filtered => (filtered, heap)
  | option :: rest, heap, filtered =>
    let split := FieldsFunc (heap option).Str.toList fieldsFunc
    let matches_ := countMatches lower searchFields split
    let heap := Function.update heap option { heap option with matches_ := matches_ }
    if matches_ > 0 then FilteredOptions.loop lower searchFields rest heap (filtered ++ [option])
    else FilteredOptions.loop lower searchFields rest heap filtered

namespace MenuWindow

/-- Replace the object at address `p`. -/
def store (lw : MenuWindow) (p : Ptr) (item : MenuItem) : MenuWindow :=
  { lw with heap := Function.update lw.heap p item }

/-- `func (lw *MenuWindow) CheckBounds(index int) int`. -/
def CheckBounds (lw : MenuWindow) (index : ℤ) : ℤ :=
  if index < 0 then 0
  else if index ≥ lw.Options.length then (lw.Options.length : ℤ) - 1
  else index

/-- `func (lw *MenuWindow) RemoveMarked(index int)`. -/
def RemoveMarked (lw : MenuWindow) (index : ℤ) : Option MenuWindow :=
  let index := lw.CheckBounds index
  match Discorder.index lw.Options index with
  | none => none
  | some p => some { lw.store p { lw.heap p with Marked := false } with Dirty := true }

/-- `func (lw *MenuWindow) AddMarked(index int)`. -/
def AddMarked (lw : MenuWindow) (index : ℤ) : Option MenuWindow :=
  let index := lw.CheckBounds index
  match Discorder.index lw.Options index with
  | none => none
  | some p => some { lw.store p { lw.heap p with Marked := true } with Dirty := true }

/-- The first half of `SetHighlighted`: remove the previous selection. -/
def clearPrevious (lw : MenuWindow) : Option MenuWindow :=
  if lw.Highlighted < lw.Options.length ∧ lw.Highlighted ≥ 0 then
    match Discorder.index lw.Options lw.Highlighted with
    | none => none
    | some p => some (lw.store p { lw.heap p with Highlighted := false })
  else some lw

/-- `func (lw *MenuWindow) SetHighlighted(Highlighted int)`. -/
def SetHighlighted (lw : MenuWindow) (Highlighted : ℤ) : Option MenuWindow :=
  if lw.Options.length < 1 then some lw
  else
    match lw.clearPrevious with
    | none => none
    | some lw1 =>
      let Highlighted := lw1.CheckBounds Highlighted
      match Discorder.index lw1.Options Highlighted with
      | none => none
      | some p =>
        some { lw1.store p { lw1.heap p with Highlighted := true } with
          Highlighted := Highlighted, Dirty := true }

/-- `func (lw *MenuWindow) GetHighlighted() *MenuItem`. -/
def GetHighlighted (lw : MenuWindow) : Option Ptr :=
  Discorder.index lw.Options (lw.CheckBounds lw.Highlighted)

/-- The loop of `SetOptionsString`: `k` is the slot being filled, `options` the labels still
to store; every label gets a newly allocated `MenuItem`.  The slots of the new slice are
assigned in order, which is rendered as appending to `slots`. -/
def SetOptionsString.loop (highlighted : ℤ) :
    List String → ℕ → List Ptr → (Ptr → MenuItem) → Ptr → List Ptr × (Ptr → MenuItem) × Ptr
  | [], _, slots, heap, next => (slots, heap, next)
  | v :: options, k, slots, heap, next =>
    let item : MenuItem := ⟨v, false, false, "", none, 0⟩
    let item := if (k : ℤ) = highlighted then { item with Highlighted := true } else item
    SetOptionsString.loop highlighted options (k + 1) (slots ++ [next])
      (Function.update heap next item) (next + 1)

/-- `func (lw *MenuWindow) SetOptionsString(options []string)`. -/
def SetOptionsString (lw : MenuWindow) (options : List String) : MenuWindow :=
  let r := SetOptionsString.loop lw.Highlighted options 0 [] lw.heap lw.next
  { lw with Options := r.1, heap := r.2.1, next := r.2.2, Dirty := true }

/-- `func (lw *MenuWindow) SetOptions(options []*MenuItem)`. -/
def SetOptions (lw : MenuWindow) (options : List Ptr) : MenuWindow :=
  { lw with Options := options, Dirty := true }

/-- `func (mw *MenuWindow) FilteredOptions() []*MenuItem`, returning the slice and the window
with the `matches` fields it has written.  `sortFn` is `sort.Sort` (see `SortContract`) and
`lower` is `unicode.ToLower`. -/
def FilteredOptions (sortFn : (Ptr → Ptr → Bool) → List Ptr → List Ptr) (lower : Char → Char)
    (mw : MenuWindow) : List Ptr × MenuWindow :=
  if mw.lastSearch = "" then (mw.Options, mw)
  else
    let searchFields := FieldsFunc mw.lastSearch.toList fieldsFunc
    let r := FilteredOptions.loop lower searchFields mw.Options mw.heap []
    (sortFn (MenuItemSlice.Less r.2) r.1, { mw with heap := r.2 })

/-- `func (lw *MenuWindow) OptionsHeight() int`.  `wrapHeight` is the helper
`HeightRequired(str, width)` of the package `ui`, which is not among the sources, and `rectW`
is `int(lw.Transform.GetRect().W)`. -/
def OptionsHeight (wrapHeight : String → ℤ → ℤ) (rectW : ℤ) (lw : MenuWindow) : ℤ :=
  lw.Options.foldl (fun h v => wrapInt (h + wrapHeight (lw.heap v).Str rectW)) 0

/-- The value of `requiredHeight` in `func (lw *MenuWindow) Rebuild()`: the function first
calls `lw.FilteredOptions()` and then `lw.OptionsHeight()`.  The rest of `Rebuild`, which
builds the `Text` nodes, is not represented. -/
def Rebuild.requiredHeight (sortFn : (Ptr → Ptr → Bool) → List Ptr → List Ptr)
    (lower : Char → Char) (wrapHeight : String → ℤ → ℤ) (rectW : ℤ) (lw : MenuWindow) : ℤ :=
  (lw.FilteredOptions sortFn lower).2.OptionsHeight wrapHeight rectW

/-- `func (lw *MenuWindow) Scroll(dir Direction, amount int)`. -/
def Scroll (lw : MenuWindow) (dir : Direction) (amount : ℤ) : Option MenuWindow :=
  match dir with
  | .DirUp => lw.SetHighlighted (wrapInt (lw.Highlighted - amount))
  | .DirDown => lw.SetHighlighted (wrapInt (lw.Highlighted + amount))
  | .DirEnd => lw.SetHighlighted ((lw.Options.length : ℤ) - 1)
  | .DirStart => lw.SetHighlighted 0

end MenuWindow


/-! ## Specification-side definitions -/

/-- The value of `curAttribs` when the loop of `GenCellSlice` reaches the rune number `i`. -/
def curAt (points : ℤ → Option AttribPoint) : ℕ → AttribPoint
  | 0 => ResetAttribPoint
  | i + 1 =>
    match points (i : ℤ) with
    | some a => a
    | none => curAt points i

/-- The style of cell `i` in the words of the claim: `a` is `points[k]` for the greatest key
`k ≤ i` present in `points`, or the default style when no key `≤ i` is present. -/
def StatedStyle (points : ℤ → Option AttribPoint) (i : ℕ) (a : AttribPoint) : Prop :=
  (∃ k : ℤ, k ≤ i ∧ points k = some a ∧ ∀ k2 : ℤ, k2 ≤ i → points k2 ≠ none → k2 ≤ k) ∨
    ((∀ k : ℤ, k ≤ i → points k = none) ∧ a = ResetAttribPoint)

/-- The style of cell `i` that the loop produces: as `StatedStyle`, with the keys restricted to
the indices `0 ≤ k ≤ i` that the loop looks up. -/
def LoopStyle (points : ℤ → Option AttribPoint) (i : ℕ) (a : AttribPoint) : Prop :=
  (∃ k : ℤ, 0 ≤ k ∧ k ≤ i ∧ points k = some a ∧
      ∀ k2 : ℤ, 0 ≤ k2 → k2 ≤ i → points k2 ≠ none → k2 ≤ k) ∨
    ((∀ k : ℤ, 0 ≤ k → k ≤ i → points k = none) ∧ a = ResetAttribPoint)

/-- A style map with the keys `1` and `3`. -/
def twoPoints : ℤ → Option AttribPoint :=
  fun k => if k = 1 then some ⟨3, 4⟩ else if k = 3 then some ⟨5, 6⟩ else none

/-- A style map whose only key is `-1`. -/
def negKeyPoints : ℤ → Option AttribPoint :=
  fun k => if k = -1 then some ⟨1, 2⟩ else none

/-- The fields of a label or of the search string, as `FilteredOptions` computes them. -/
def tokens (s : String) : List (List Char) := FieldsFunc s.toList fieldsFunc

/-- The match-score in the words of the claim: the number of pairs (search token, option token)
such that the lower-cased option token contains the lower-cased search token as a substring. -/
def matchScore (lower : Char → Char) (search label : String) : ℕ :=
  (tokens search ×ˢ tokens label).countP
    (fun p => decide (ToLower lower p.1 <:+: ToLower lower p.2))

/-- The score that the loop of `FilteredOptions` stores for an item. -/
def scoreOf (lower : Char → Char) (searchFields : List (List Char)) (item : MenuItem) : ℤ :=
  countMatches lower searchFields (FieldsFunc item.Str.toList fieldsFunc)

/-- An item that has never been written. -/
def blankItem : MenuItem := ⟨"", false, false, "", none, 0⟩

/-- A window with no options and the given highlighted index and search string. -/
def emptyWindow (highlighted : ℤ) (search : String) : MenuWindow :=
  ⟨[], highlighted, false, search, fun _ => blankItem, 0⟩

/-- The options `["Apple", "Banana", "Pineapple"]` with the search string `"ap"`. -/
def appleWindow : MenuWindow :=
  (emptyWindow 0 "ap").SetOptionsString ["Apple", "Banana", "Pineapple"]

/-- The list `ts` consists of the maximal non-empty runs of non-separator characters of `s`, in
order: `s` is a run of separators followed by nothing, or by a non-empty run `tok` of
non-separators that ends at the end of `s` or just before a separator, after which the
remainder of `s` is decomposed in the same way. -/
inductive MaximalRuns (sep : Char → Bool) : List Char → List (List Char) → Prop where
  | nil (s : List Char) : (∀ c ∈ s, sep c = true) → MaximalRuns sep s []
  | cons (pre tok rest : List Char) (ts : List (List Char)) :
      (∀ c ∈ pre, sep c = true) → tok ≠ [] → (∀ c ∈ tok, sep c = false) →
      (∀ c, rest.head? = some c → sep c = true) → MaximalRuns sep rest ts →
      MaximalRuns sep (pre ++ (tok ++ rest)) (tok :: ts)

/-- The separators in the words of the claim: whitespace characters and the underscore. -/
def isWhitespaceOrUnderscore (c : Char) : Bool := c.isWhitespace || c == '_'

/-- The options `["ap ap", "Apple", "map_apt cap"]` with the search string `"ap"`. -/
def rankWindow : MenuWindow :=
  (emptyWindow 0 "ap").SetOptionsString ["ap ap", "Apple", "map_apt cap"]

/-- The highlight invariant: the highlighted index lies in `[0, length)` and an option carries
`Highlighted = true` exactly when it is the option at the highlighted index. -/
def HighlightInv (lw : MenuWindow) : Prop :=
  0 ≤ lw.Highlighted ∧ lw.Highlighted < lw.Options.length ∧
    ∀ (i : ℕ) (p : Ptr), lw.Options[i]? = some p →
      ((lw.heap p).Highlighted = true ↔ (i : ℤ) = lw.Highlighted)

/-- The options `["A", "B", "C"]` with the initial highlight `0`. -/
def abcWindow : MenuWindow :=
  (emptyWindow 0 "").SetOptionsString ["A", "B", "C"]

/-- Six options with the initial highlight `0`. -/
def sixWindow : MenuWindow :=
  (emptyWindow 0 "").SetOptionsString ["a", "b", "c", "d", "e", "f"]

/-- The call that writes cell number `i` when rows hold `width + 1` cells: column offset
`i mod (width + 1)`, row offset `i div (width + 1)`, added to the start position in `int`
arithmetic. -/
def cellPosition (startX startY width : ℤ) (i : ℕ) (c : Cell) : CellWrite :=
  ⟨wrapInt ((i : ℤ) % (width + 1) + startX), wrapInt ((i : ℤ) / (width + 1) + startY), c⟩

/-- The calls that write the cells `cells`, numbered from `k`, each at its `cellPosition`. -/
def expectedWrites (startX startY width : ℤ) (k : ℕ) (cells : List Cell) : List CellWrite :=
  (cells.enumFrom k).map (fun p => cellPosition startX startY width p.1 p.2)

/-- Two cells. -/
def twoCells : List Cell := [⟨'a', 0, 0⟩, ⟨'b', 0, 0⟩]

/-- Three cells. -/
def threeCells : List Cell := [⟨'a', 0, 0⟩, ⟨'b', 0, 0⟩, ⟨'c', 0, 0⟩]

/-- The number of distinct rows among the calls `ws`. -/
def distinctRows (ws : List CellWrite) : ℕ := (ws.map CellWrite.y).dedup.length

/-- The sum of the wrap-heights of the filtered options, in the words of the claim: over the
result of `FilteredOptions` for the current search string, each label at the width `rectW`. -/
def filteredHeight (sortFn : (Ptr → Ptr → Bool) → List Ptr → List Ptr) (lower : Char → Char)
    (wrapHeight : String → ℤ → ℤ) (rectW : ℤ) (lw : MenuWindow) : ℤ :=
  ((lw.FilteredOptions sortFn lower).1.map (fun p => wrapHeight (lw.heap p).Str rectW)).sum

/-! # Theorems -/

/-! ## Floating-point rounding and `HeightRequired` -/

theorem roundHalfEven_cases (x : ℚ) : roundHalfEven x = ⌊x⌋ ∨ roundHalfEven x = ⌊x⌋ + 1 := by
  unfold roundHalfEven
  simp only
  split_ifs <;> simp

theorem roundHalfEven_intCast (k : ℤ) : roundHalfEven (k : ℚ) = k := by
  unfold roundHalfEven
  simp

theorem le_roundHalfEven {a : ℤ} {x : ℚ} (h : (a : ℚ) ≤ x) : a ≤ roundHalfEven x := by
  have hf : a ≤ ⌊x⌋ := Int.le_floor.mpr h
  rcases roundHalfEven_cases x with h1 | h1 <;> omega

theorem roundHalfEven_le {b : ℤ} {x : ℚ} (h : x ≤ (b : ℚ)) : roundHalfEven x ≤ b := by
  rcases eq_or_lt_of_le h with h0 | h0
  · rw [h0, roundHalfEven_intCast]
  · have hf : ⌊x⌋ < b := Int.floor_lt.mpr h0
    rcases roundHalfEven_cases x with h1 | h1 <;> omega

theorem succ_le_roundHalfEven {a : ℤ} {x : ℚ} (h : (a : ℚ) + 1 / 2 < x) :
    a + 1 ≤ roundHalfEven x := by
  have hf : a ≤ ⌊x⌋ := Int.le_floor.mpr (by linarith)
  rcases lt_or_eq_of_le hf with h1 | h1
  · have := le_roundHalfEven (a := ⌊x⌋) (Int.floor_le x)
    omega
  · unfold roundHalfEven
    simp only
    rw [← h1]
    have h2 : ¬ (x - (a : ℚ) < 1 / 2) := by linarith
    have h3 : 1 / 2 < x - (a : ℚ) := by linarith
    rw [if_neg h2, if_pos h3]

theorem two_zpow_eq_natCast {e : ℤ} (h : 0 ≤ e) : ((2 : ℚ) ^ e) = (((2 ^ e.toNat : ℕ) : ℤ) : ℚ) := by
  obtain ⟨m, rfl⟩ := Int.eq_ofNat_of_zero_le h
  simp

theorem log_bounds {q : ℚ} (hq : 0 < q) :
    (2 : ℚ) ^ Int.log 2 q ≤ q ∧ q < (2 : ℚ) ^ (Int.log 2 q + 1) :=
  ⟨Int.zpow_log_le_self (by norm_num) hq, Int.lt_zpow_succ_log_self (by norm_num) q⟩

theorem roundPos_ceil (n W : ℤ) (hn : 0 < n) (hn53 : n < 2 ^ 53) (hW : 0 < W) :
    ⌈roundPos ((n : ℚ) / W)⌉ = ⌈(n : ℚ) / W⌉ := by
  have hWq : (0 : ℚ) < W := by exact_mod_cast hW
  have hnq : (0 : ℚ) < n := by exact_mod_cast hn
  have hq : (0 : ℚ) < (n : ℚ) / W := div_pos hnq hWq
  obtain ⟨hlo, hhi⟩ := log_bounds hq
  set q : ℚ := (n : ℚ) / W with hqdef
  set e : ℤ := Int.log 2 q with hedef
  set k : ℤ := ⌈q⌉ with hk
  have hk1 : (k : ℚ) - 1 < q := by
    have := Int.ceil_lt_add_one q
    rw [← hk] at this; linarith
  have hk2 : q ≤ k := Int.le_ceil q
  have hn53q : (n : ℚ) < 2 ^ (53 : ℤ) := by
    have : ((n : ℤ) : ℚ) < ((2 ^ 53 : ℤ) : ℚ) := by exact_mod_cast hn53
    norm_num at this ⊢
    exact this
  -- W * 2^e ≤ n
  have h2e : (0 : ℚ) < 2 ^ e := by positivity
  have hWe : (W : ℚ) * 2 ^ e ≤ n := by
    have := (le_div_iff₀ hWq).mp hlo
    linarith
  have hW1 : (1 : ℚ) ≤ W := by exact_mod_cast hW
  have he52 : e ≤ 52 := by
    have h1 : (2 : ℚ) ^ e < 2 ^ (53 : ℤ) := by
      calc (2 : ℚ) ^ e = 1 * 2 ^ e := by ring
        _ ≤ W * 2 ^ e := by gcongr
        _ ≤ n := hWe
        _ < _ := hn53q
    have := (zpow_lt_zpow_iff_right₀ (by norm_num : (1 : ℚ) < 2)).mp h1
    omega
  -- P = 2^(52-e) as an integer
  set P : ℤ := ((2 ^ (52 - e).toNat : ℕ) : ℤ) with hP
  have hPq : (P : ℚ) = 2 ^ (52 - e) := (two_zpow_eq_natCast (by omega)).symm
  have hPpos : (0 : ℚ) < P := by rw [hPq]; positivity
  have hulp : (2 : ℚ) ^ (e - 52) = (P : ℚ)⁻¹ := by
    rw [hPq, ← zpow_neg]; congr 1; ring
  have hWP : (W : ℚ) < 2 * P := by
    have h1 : (W : ℚ) * 2 ^ e < 2 ^ (53 : ℤ) := lt_of_le_of_lt hWe hn53q
    have h2 : (2 : ℚ) * P = 2 ^ (53 : ℤ) / 2 ^ e := by
      rw [hPq, ← zpow_sub₀ (by norm_num : (2 : ℚ) ≠ 0), ← zpow_one_add₀ (by norm_num : (2 : ℚ) ≠ 0)]
      congr 1; ring
    rw [h2, lt_div_iff₀ h2e]; exact h1
  -- q - (k-1) ≥ 1/W
  have hgap : (1 : ℚ) / W ≤ q - (k - 1) := by
    have h1 : (0 : ℚ) < (n : ℚ) - (k - 1) * W := by
      have := (lt_div_iff₀ hWq).mp hk1
      linarith
    have h2 : (0 : ℤ) < n - (k - 1) * W := by exact_mod_cast h1
    have h3 : (1 : ℤ) ≤ n - (k - 1) * W := h2
    have h4 : (1 : ℚ) ≤ (n : ℚ) - (k - 1) * W := by exact_mod_cast h3
    rw [hqdef, div_le_iff₀ hWq, sub_mul, div_mul_cancel₀ _ (ne_of_gt hWq)]
    exact h4
  unfold roundPos
  simp only
  rw [← hedef, hulp, div_inv_eq_mul, Int.ceil_eq_iff]
  constructor
  · -- lower bound
    have h1 : (((k - 1) * P : ℤ) : ℚ) + 1 / 2 < q * P := by
      push_cast
      have : (1 : ℚ) / 2 < (q - (k - 1)) * P := by
        calc (1 : ℚ) / 2 < (1 / W) * P := by
              rw [div_mul_eq_mul_div, one_mul, lt_div_iff₀ hWq]; linarith
          _ ≤ (q - (k - 1)) * P := by gcongr
      linarith
    have h2 := succ_le_roundHalfEven h1
    have h3 : (((k - 1) * P + 1 : ℤ) : ℚ) ≤ (roundHalfEven (q * P) : ℚ) := by exact_mod_cast h2
    have h4 : ((k : ℚ) - 1) + (P : ℚ)⁻¹ ≤ (roundHalfEven (q * P) : ℚ) * (P : ℚ)⁻¹ := by
      rw [← div_eq_mul_inv, le_div_iff₀ hPpos]
      push_cast at h3
      rw [add_mul, inv_mul_cancel₀ (ne_of_gt hPpos)]
      exact h3
    have h5 : (0 : ℚ) < (P : ℚ)⁻¹ := inv_pos.mpr hPpos
    linarith
  · have h1 : q * P ≤ ((k * P : ℤ) : ℚ) := by
      push_cast; gcongr
    have h2 := roundHalfEven_le h1
    have h3 : (roundHalfEven (q * P) : ℚ) ≤ ((k * P : ℤ) : ℚ) := by exact_mod_cast h2
    rw [← div_eq_mul_inv, div_le_iff₀ hPpos]
    push_cast at h3
    exact h3

theorem roundPos_exact (n : ℤ) (hn : 0 < n) (hn53 : n < 2 ^ 53) : roundPos (n : ℚ) = n := by
  have hnq : (0 : ℚ) < n := by exact_mod_cast hn
  obtain ⟨hlo, _⟩ := log_bounds hnq
  set e : ℤ := Int.log 2 (n : ℚ) with hedef
  have hn53q : (n : ℚ) < 2 ^ (53 : ℤ) := by
    have : ((n : ℤ) : ℚ) < ((2 ^ 53 : ℤ) : ℚ) := by exact_mod_cast hn53
    norm_num at this ⊢
    exact this
  have he52 : e ≤ 52 := by
    have := (zpow_lt_zpow_iff_right₀ (by norm_num : (1 : ℚ) < 2)).mp (lt_of_le_of_lt hlo hn53q)
    omega
  set P : ℤ := ((2 ^ (52 - e).toNat : ℕ) : ℤ) with hP
  have hPq : (P : ℚ) = 2 ^ (52 - e) := (two_zpow_eq_natCast (by omega)).symm
  have hPpos : (0 : ℚ) < P := by rw [hPq]; positivity
  have hulp : (2 : ℚ) ^ (e - 52) = (P : ℚ)⁻¹ := by
    rw [hPq, ← zpow_neg]; congr 1; ring
  unfold roundPos
  simp only
  rw [← hedef, hulp, div_inv_eq_mul]
  have : (n : ℚ) * P = ((n * P : ℤ) : ℚ) := by push_cast; rfl
  rw [this, roundHalfEven_intCast]
  push_cast
  rw [mul_assoc, mul_inv_cancel₀ (ne_of_gt hPpos), mul_one]

theorem roundPos_large (w : ℤ) (hw : 2 ^ 53 ≤ w) :
    ∃ W : ℤ, roundPos (w : ℚ) = W ∧ 2 ^ 53 ≤ W := by
  have hwq : (2 : ℚ) ^ (53 : ℤ) ≤ w := by
    have : ((2 ^ 53 : ℤ) : ℚ) ≤ ((w : ℤ) : ℚ) := by exact_mod_cast hw
    norm_num at this ⊢
    exact this
  have hpos : (0 : ℚ) < w := lt_of_lt_of_le (by positivity) hwq
  obtain ⟨hlo, hhi⟩ := log_bounds hpos
  set e : ℤ := Int.log 2 (w : ℚ) with hedef
  have he : 53 ≤ e := by
    have := (zpow_lt_zpow_iff_right₀ (by norm_num : (1 : ℚ) < 2)).mp (lt_of_le_of_lt hwq hhi)
    omega
  set U : ℤ := ((2 ^ (e - 52).toNat : ℕ) : ℤ) with hU
  have hUq : (U : ℚ) = 2 ^ (e - 52) := (two_zpow_eq_natCast (by omega)).symm
  have hUpos : (0 : ℚ) < U := by rw [hUq]; positivity
  have hUposZ : (0 : ℤ) < U := by exact_mod_cast hUpos
  refine ⟨roundHalfEven ((w : ℚ) / U) * U, ?_, ?_⟩
  · unfold roundPos
    simp only
    rw [← hedef, ← hUq]
    push_cast; rfl
  · have h1 : (((2 ^ 52 : ℤ)) : ℚ) ≤ (w : ℚ) / U := by
      rw [le_div_iff₀ hUpos, hUq]
      have : ((2 ^ 52 : ℤ) : ℚ) = 2 ^ (52 : ℤ) := by norm_num
      rw [this, ← zpow_add₀ (by norm_num : (2 : ℚ) ≠ 0)]
      have : (52 : ℤ) + (e - 52) = e := by ring
      rw [this]; exact hlo
    have h2 := le_roundHalfEven h1
    have h3 : (2 : ℤ) ≤ U := by
      have : (2 : ℚ) ^ (1 : ℤ) ≤ 2 ^ (e - 52) :=
        zpow_le_zpow_right₀ (by norm_num) (by omega)
      rw [← hUq] at this
      have h4 : ((2 : ℤ) : ℚ) ≤ (U : ℚ) := by simpa using this
      exact_mod_cast h4
    calc (2 : ℤ) ^ 53 = 2 ^ 52 * 2 := by norm_num
      _ ≤ roundHalfEven ((w : ℚ) / U) * U := by
          apply mul_le_mul h2 h3 (by norm_num) (le_trans (by norm_num) h2)

theorem roundFloat64_of_pos {q : ℚ} (h : 0 < q) : roundFloat64 q = roundPos q := by
  unfold roundFloat64
  rw [if_neg (ne_of_gt h), if_neg (not_lt.mpr h.le)]

theorem roundFloat64_intCast_pos (w : ℤ) (hw : 0 < w) :
    ∃ W : ℤ, roundFloat64 (w : ℚ) = W ∧ 0 < W ∧ (w < 2 ^ 53 → W = w) ∧ (2 ^ 53 ≤ w → 2 ^ 53 ≤ W) := by
  have hwq : (0 : ℚ) < w := by exact_mod_cast hw
  rw [roundFloat64_of_pos hwq]
  rcases lt_or_le w (2 ^ 53) with h | h
  · exact ⟨w, roundPos_exact w hw h, hw, fun _ => rfl, fun h2 => h2⟩
  · obtain ⟨W, hW, hW2⟩ := roundPos_large w h
    exact ⟨W, hW, by omega, fun h2 => by omega, fun _ => hW2⟩

theorem ceil_div_of_lt (n W : ℤ) (hn : 0 < n) (h : n < W) : ⌈(n : ℚ) / W⌉ = 1 := by
  have hnq : (0 : ℚ) < n := by exact_mod_cast hn
  have hq : (n : ℚ) < W := by exact_mod_cast h
  have hW : (0 : ℚ) < W := lt_trans hnq hq
  rw [Int.ceil_eq_iff]
  constructor
  · simp; positivity
  · rw [div_le_iff₀ hW]; simp; linarith

theorem HeightRequired_ceil (n w : ℤ) (hn : 0 ≤ n) (hn53 : n < 2 ^ 53) (hw : 0 < w) :
    HeightRequired n w = ⌈(n : ℚ) / w⌉ := by
  unfold HeightRequired
  rcases eq_or_lt_of_le hn with h0 | h0
  · subst h0
    simp [roundFloat64]
  · obtain ⟨W, hW, hWpos, hsmall, hlarge⟩ := roundFloat64_intCast_pos w hw
    have hnq : (0 : ℚ) < n := by exact_mod_cast h0
    have hWq : (0 : ℚ) < W := by exact_mod_cast hWpos
    rw [hW, roundFloat64_of_pos hnq, roundPos_exact n h0 hn53,
      roundFloat64_of_pos (div_pos hnq hWq), roundPos_ceil n W h0 hn53 hWpos]
    rcases lt_or_le w (2 ^ 53) with h | h
    · rw [hsmall h]
    · rw [ceil_div_of_lt n W h0 (by have := hlarge h; omega), ceil_div_of_lt n w h0 (by omega)]

theorem HeightRequired_at_big : HeightRequired (2 ^ 53 + 1) 1 = 2 ^ 53 := by
  have hlog : Int.log 2 ((2 : ℚ) ^ 53 + 1) = 53 := by
    apply le_antisymm
    · have := (Int.lt_zpow_iff_log_lt (b := 2) (by norm_num) (x := 54) (r := (2 : ℚ) ^ 53 + 1) (by positivity)).mp (by norm_num)
      omega
    · exact (Int.zpow_le_iff_le_log (b := 2) (by norm_num) (x := 53) (r := (2 : ℚ) ^ 53 + 1) (by positivity)).mp (by norm_num)
  have h1 : roundFloat64 (1 : ℚ) = 1 := by
    have := roundPos_exact 1 (by norm_num) (by norm_num)
    rw [roundFloat64_of_pos (by norm_num)]
    simpa using this
  have hfl : ⌊((2 : ℚ) ^ 53 + 1) / 2⌋ = 2 ^ 52 := by
    rw [Int.floor_eq_iff]; norm_num
  have h2 : roundFloat64 ((2 : ℚ) ^ 53 + 1) = 2 ^ 53 := by
    rw [roundFloat64_of_pos (by positivity)]
    unfold roundPos
    simp only
    rw [hlog]
    have : roundHalfEven (((2 : ℚ) ^ 53 + 1) / 2 ^ ((53 : ℤ) - 52)) = 2 ^ 52 := by
      unfold roundHalfEven
      simp only
      have e1 : ((2 : ℚ) ^ 53 + 1) / 2 ^ ((53 : ℤ) - 52) = ((2 : ℚ) ^ 53 + 1) / 2 := by norm_num
      rw [e1, hfl]
      norm_num
    rw [this]
    norm_num
  have h3 : roundFloat64 ((2 : ℚ) ^ 53) = 2 ^ 53 := by
    rw [roundFloat64_of_pos (by positivity)]
    unfold roundPos
    simp only
    have hl : Int.log 2 ((2 : ℚ) ^ 53) = 53 := by
      have := Int.log_zpow (R := ℚ) (b := 2) (by norm_num) 53
      rw [← this]
      norm_cast
    rw [hl]
    have e1 : ((2 : ℚ) ^ 53) / 2 ^ ((53 : ℤ) - 52) = ((2 ^ 52 : ℤ) : ℚ) := by norm_num
    rw [e1, roundHalfEven_intCast]
    norm_num
  have e0 : (((2 ^ 53 + 1 : ℤ)) : ℚ) = (2 : ℚ) ^ 53 + 1 := by norm_num
  have e1 : (((1 : ℤ)) : ℚ) = 1 := by norm_num
  unfold HeightRequired
  rw [e0, e1, h1, h2, div_one, h3]
  rw [Int.ceil_eq_iff]
  norm_num

/-- C1 (amended): for every integer `0 ≤ n < 2 ^ 53` and every integer `w > 0`,
`HeightRequired n w` is `ceil (n / w)`, that is the least integer `k` with `k * w ≥ n`. -/
theorem HeightRequired_eq_ceil (n w : ℤ) (hn : 0 ≤ n) (hn53 : n < 2 ^ 53) (hw : 0 < w) :
    HeightRequired n w = ⌈(n : ℚ) / w⌉ ∧
      n ≤ HeightRequired n w * w ∧ ∀ k : ℤ, n ≤ k * w → HeightRequired n w ≤ k := by
  have hwq : (0 : ℚ) < w := by exact_mod_cast hw
  have h := HeightRequired_ceil n w hn hn53 hw
  refine ⟨h, ?_, ?_⟩
  · have h1 : (n : ℚ) / w ≤ (HeightRequired n w : ℚ) := by rw [h]; exact Int.le_ceil _
    rw [div_le_iff₀ hwq] at h1
    exact_mod_cast h1
  · intro k hk
    rw [h, Int.ceil_le, div_le_iff₀ hwq]
    exact_mod_cast hk

/-- C1, the examples of the claim: `HeightRequired 25 10 = 3`, `HeightRequired 10 10 = 1` and
`HeightRequired 0 10 = 0`. -/
theorem HeightRequired_eq_ceil_witness :
    HeightRequired 25 10 = 3 ∧ HeightRequired 10 10 = 1 ∧ HeightRequired 0 10 = 0 := by
  refine ⟨?_, ?_, ?_⟩
  · rw [(HeightRequired_eq_ceil 25 10 (by norm_num) (by norm_num) (by norm_num)).1,
      Int.ceil_eq_iff]
    norm_num
  · rw [(HeightRequired_eq_ceil 10 10 (by norm_num) (by norm_num) (by norm_num)).1,
      Int.ceil_eq_iff]
    norm_num
  · rw [(HeightRequired_eq_ceil 0 10 (by norm_num) (by norm_num) (by norm_num)).1,
      Int.ceil_eq_iff]
    norm_num

/-- C1, counterexample to the claim as stated: at `n = 2 ^ 53 + 1`, `w = 1` the conversion
`float64(n)` rounds to `2 ^ 53`, so `HeightRequired n w = 2 ^ 53`, which is not `ceil (n / w)`. -/
theorem HeightRequired_counterexample :
    HeightRequired (2 ^ 53 + 1) 1 = 2 ^ 53 ∧
      HeightRequired (2 ^ 53 + 1) 1 ≠ ⌈((2 ^ 53 + 1 : ℤ) : ℚ) / ((1 : ℤ) : ℚ)⌉ := by
  refine ⟨HeightRequired_at_big, ?_⟩
  rw [HeightRequired_at_big]
  have : ⌈((2 ^ 53 + 1 : ℤ) : ℚ) / ((1 : ℤ) : ℚ)⌉ = 2 ^ 53 + 1 := by
    rw [Int.ceil_eq_iff]; norm_num
  rw [this]
  norm_num


/-! ## `GenCellSlice` -/

theorem curAt_style (points : ℤ → Option AttribPoint) (i : ℕ) :
    LoopStyle points i (curAt points (i + 1)) := by
  induction i with
  | zero =>
    unfold curAt
    cases h : points ((0 : ℕ) : ℤ) with
    | some a =>
      left
      refine ⟨0, le_refl _, by simp, by simpa using h, ?_⟩
      intro k2 h1 h2 _
      simpa using h2
    | none =>
      right
      refine ⟨?_, rfl⟩
      intro k h1 h2
      have : k = ((0 : ℕ) : ℤ) := by push_cast at h2 ⊢; omega
      rw [this]; exact h
  | succ i ih =>
    unfold curAt
    cases h : points ((i + 1 : ℕ) : ℤ) with
    | some a =>
      left
      exact ⟨((i + 1 : ℕ) : ℤ), by positivity, le_refl _, h, fun k2 _ h2 _ => h2⟩
    | none =>
      simp only
      rcases ih with ⟨k, hk0, hki, hka, hmax⟩ | ⟨hnone, hreset⟩
      · left
        refine ⟨k, hk0, by push_cast at hki ⊢; omega, hka, ?_⟩
        intro k2 h0 h2 hne
        by_cases hk2 : k2 = ((i + 1 : ℕ) : ℤ)
        · rw [hk2] at hne; exact absurd h hne
        · exact hmax k2 h0 (by push_cast at h2 hk2 ⊢; omega) hne
      · right
        refine ⟨?_, hreset⟩
        intro k h0 h2
        by_cases hk2 : k = ((i + 1 : ℕ) : ℤ)
        · rw [hk2]; exact h
        · exact hnone k h0 (by push_cast at h2 hk2 ⊢; omega)

theorem GenCellSlice_loop_spec (points : ℤ → Option AttribPoint) :
    ∀ (runes : List Char) (index : ℕ) (cells : List Cell),
      index + runes.length ≤ cells.length →
      ∃ out, GenCellSlice.loop points runes index (curAt points index) cells = some out ∧
        out.length = cells.length ∧
        (∀ j, j < index → out[j]? = cells[j]?) ∧
        ∀ i, i < runes.length →
          ∃ ch, runes[i]? = some ch ∧
            out[index + i]? = some ⟨ch, (curAt points (index + i + 1)).fg,
              (curAt points (index + i + 1)).bg⟩ := by
  intro runes
  induction runes with
  | nil =>
    intro index cells _
    exact ⟨cells, rfl, rfl, fun _ _ => rfl, fun i hi => absurd hi (by simp)⟩
  | cons ch rest ih =>
    intro index cells hlen
    simp only [List.length_cons] at hlen
    have hidx : index < cells.length := by omega
    have hcur : (match points (index : ℤ) with
        | some newAttribs => newAttribs
        | none => curAt points index) = curAt points (index + 1) := by
      conv_rhs => unfold curAt
    unfold GenCellSlice.loop
    simp only [hcur, if_pos hidx]
    obtain ⟨out, hout, hl, hbefore, hafter⟩ :=
      ih (index + 1) (cells.set index ⟨ch, (curAt points (index + 1)).fg,
        (curAt points (index + 1)).bg⟩) (by simp; omega)
    refine ⟨out, hout, by simpa using hl, ?_, ?_⟩
    · intro j hj
      rw [hbefore j (by omega), List.getElem?_set_ne (by omega)]
    · intro i hi
      cases i with
      | zero =>
        refine ⟨ch, by simp, ?_⟩
        rw [Nat.add_zero, hbefore index (by omega), List.getElem?_set_self hidx]
      | succ i =>
        obtain ⟨c, hc, hget⟩ := hafter i (by simpa using hi)
        refine ⟨c, by simpa using hc, ?_⟩
        have e : index + (i + 1) = index + 1 + i := by omega
        rw [e]; exact hget

/-- C2 (amended): `GenCellSlice str points` returns one cell per codepoint of `str`, in input
order: cell `i` carries codepoint `i`, and its `(fg, bg)` is `points[k]` for the greatest key
`k` with `0 ≤ k ≤ i` present in `points`, or `ResetAttribPoint` when no such key is present. -/
theorem GenCellSlice_spec (str : String) (points : ℤ → Option AttribPoint) :
    ∃ cells, GenCellSlice str points = some cells ∧
      cells.length = str.toList.length ∧
      ∀ i, i < str.toList.length →
        ∃ c, cells[i]? = some c ∧ str.toList[i]? = some c.Ch ∧
          LoopStyle points i ⟨c.Fg, c.Bg⟩ := by
  obtain ⟨out, hout, hl, _, hcells⟩ :=
    GenCellSlice_loop_spec points str.toList 0 (List.replicate str.toList.length default)
      (by simp)
  refine ⟨out, hout, by simpa using hl, ?_⟩
  intro i hi
  obtain ⟨ch, hch, hget⟩ := hcells i hi
  rw [Nat.zero_add] at hget
  exact ⟨_, hget, hch, curAt_style points i⟩

/-- C2, at a concrete input: the five codepoints of `"héllo"` give five cells, and cell `2`
carries the third codepoint with the style of a key in `[0, 2]`. -/
theorem GenCellSlice_spec_witness :
    ∃ cells, GenCellSlice "héllo" twoPoints = some cells ∧ cells.length = 5 ∧
      ∃ c, cells[2]? = some c ∧ "héllo".toList[2]? = some c.Ch ∧
        LoopStyle twoPoints 2 ⟨c.Fg, c.Bg⟩ := by
  obtain ⟨cells, h, hl, hc⟩ := GenCellSlice_spec "héllo" twoPoints
  exact ⟨cells, h, hl, hc 2 (by decide)⟩

/-- C2, counterexample to the claim as stated: for the one-rune string `"a"` and the map
`{-1: (1, 2)}` the greatest key `≤ 0` present is `-1`, but the cell gets the default style. -/
theorem GenCellSlice_counterexample :
    GenCellSlice "a" negKeyPoints = some [⟨'a', 0, 0⟩] ∧
      StatedStyle negKeyPoints 0 ⟨1, 2⟩ ∧ ¬ StatedStyle negKeyPoints 0 ⟨0, 0⟩ := by
  refine ⟨by decide, ?_, ?_⟩
  · left
    refine ⟨-1, by norm_num, by simp [negKeyPoints], ?_⟩
    intro k2 _ hne
    by_contra hk
    apply hne
    simp only [negKeyPoints]
    rw [if_neg]
    omega
  · rintro (⟨k, _, hk, _⟩ | ⟨hnone, _⟩)
    · simp only [negKeyPoints] at hk
      split_ifs at hk
      simp at hk
    · have := hnone (-1) (by norm_num)
      simp [negKeyPoints] at this


/-! ## `FilteredOptions` -/

theorem Contains_iff (s substr : List Char) : Contains s substr = true ↔ substr <:+: s := by
  unfold Contains
  rw [List.any_eq_true, List.infix_iff_prefix_suffix]
  constructor
  · rintro ⟨t, ht, hp⟩
    exact ⟨t, List.isPrefixOf_iff_prefix.mp hp, (List.mem_tails _ _).mp ht⟩
  · rintro ⟨t, hp, ht⟩
    exact ⟨t, (List.mem_tails _ _).mpr ht, List.isPrefixOf_iff_prefix.mpr hp⟩

theorem foldl_count {α : Type} (P : α → Bool) (l : List α) (m : ℤ) :
    l.foldl (fun acc a => if P a then acc + 1 else acc) m = m + (l.countP P : ℕ) := by
  induction l generalizing m with
  | nil => simp
  | cons a l ih =>
    rw [List.foldl_cons, ih, List.countP_cons]
    by_cases h : P a = true
    · simp [h]; ring
    · simp [h]

theorem countMatches_eq (lower : Char → Char) (sf split : List (List Char)) :
    countMatches lower sf split =
      (((sf ×ˢ split).countP
        (fun p => decide (ToLower lower p.1 <:+: ToLower lower p.2)) : ℕ) : ℤ) := by
  unfold countMatches
  have key : ∀ (l : List (List Char)) (m : ℤ),
      l.foldl (fun acc searchField =>
        split.foldl (fun acc optionField =>
          if Contains (ToLower lower optionField) (ToLower lower searchField) then acc + 1
          else acc) acc) m =
      m + (((l ×ˢ split).countP
        (fun p => decide (ToLower lower p.1 <:+: ToLower lower p.2)) : ℕ) : ℤ) := by
    intro l
    induction l with
    | nil => intro m; simp
    | cons a l ih =>
      intro m
      rw [List.foldl_cons, ih, List.product_cons, List.countP_append, List.countP_map,
        foldl_count (fun o => Contains (ToLower lower o) (ToLower lower a)) split m]
      have : List.countP (fun o => Contains (ToLower lower o) (ToLower lower a)) split =
          List.countP ((fun p : List Char × List Char =>
            decide (ToLower lower p.1 <:+: ToLower lower p.2)) ∘ Prod.mk a) split := by
        apply List.countP_congr
        intro o _
        simp only [Function.comp]
        rw [Contains_iff]
        simp
      rw [this]
      push_cast
      ring
  rw [key sf 0, zero_add]

theorem scoreOf_eq (lower : Char → Char) (search : String) (item : MenuItem) :
    scoreOf lower (tokens search) item = (matchScore lower search item.Str : ℤ) := by
  unfold scoreOf matchScore tokens
  exact countMatches_eq lower _ _


theorem scoreOf_congr (lower : Char → Char) (sf : List (List Char)) {a b : MenuItem}
    (h : a.Str = b.Str) : scoreOf lower sf a = scoreOf lower sf b := by
  unfold scoreOf
  rw [h]

theorem FilteredOptions_loop_spec (lower : Char → Char) (sf : List (List Char)) :
    ∀ (options : List Ptr) (heap : Ptr → MenuItem) (filtered : List Ptr),
      (FilteredOptions.loop lower sf options heap filtered).1 =
          filtered ++ options.filter (fun p => decide (0 < scoreOf lower sf (heap p))) ∧
        ∀ p, (FilteredOptions.loop lower sf options heap filtered).2 p =
          if p ∈ options then { heap p with matches_ := scoreOf lower sf (heap p) } else heap p := by
  intro options
  induction options with
  | nil => intro heap filtered; simp [FilteredOptions.loop]
  | cons o rest ih =>
    intro heap filtered
    have hstr : ∀ p, ((Function.update heap o
        { heap o with matches_ := scoreOf lower sf (heap o) }) p).Str = (heap p).Str := by
      intro p
      by_cases hp : p = o
      · subst hp; simp
      · simp [Function.update_noteq hp]
    have hsc : ∀ p, scoreOf lower sf ((Function.update heap o
        { heap o with matches_ := scoreOf lower sf (heap o) }) p) = scoreOf lower sf (heap p) :=
      fun p => scoreOf_congr lower sf (hstr p)
    have hheap : ∀ (r : Ptr → MenuItem),
        (∀ p, r p = if p ∈ rest then
          { (Function.update heap o { heap o with matches_ := scoreOf lower sf (heap o) }) p with
            matches_ := scoreOf lower sf ((Function.update heap o
              { heap o with matches_ := scoreOf lower sf (heap o) }) p) }
          else (Function.update heap o { heap o with matches_ := scoreOf lower sf (heap o) }) p) →
        ∀ p, r p = if p ∈ o :: rest then { heap p with matches_ := scoreOf lower sf (heap p) }
          else heap p := by
      intro r hr p
      rw [hr p, hsc p]
      by_cases hp : p = o
      · subst hp
        by_cases hm : p ∈ rest <;> simp [hm]
      · by_cases hm : p ∈ rest <;> simp [hm, hp, Function.update_noteq hp]
    have hdef : countMatches lower sf (FieldsFunc (heap o).Str.toList fieldsFunc) =
        scoreOf lower sf (heap o) := rfl
    unfold FilteredOptions.loop
    simp only [hdef]
    by_cases hpos : scoreOf lower sf (heap o) > 0
    · rw [if_pos hpos]
      obtain ⟨h1, h2⟩ := ih (Function.update heap o
        { heap o with matches_ := scoreOf lower sf (heap o) }) (filtered ++ [o])
      refine ⟨?_, hheap _ h2⟩
      rw [h1, List.filter_cons_of_pos (by simpa using hpos)]
      simp only [hsc, List.append_assoc, List.singleton_append]
    · rw [if_neg hpos]
      obtain ⟨h1, h2⟩ := ih (Function.update heap o
        { heap o with matches_ := scoreOf lower sf (heap o) }) filtered
      refine ⟨?_, hheap _ h2⟩
      rw [h1, List.filter_cons_of_neg (by simpa using hpos)]
      simp only [hsc]

theorem insertionSortFn_contract : SortContract insertionSortFn := by
  intro less l
  refine ⟨List.perm_insertionSort _ l, ?_⟩
  intro hasym hneg
  haveI : IsTotal Ptr (fun a b => less b a = false) := ⟨fun a b => by
    cases h : less b a with
    | false => exact Or.inl rfl
    | true => exact Or.inr (hasym b a h)⟩
  haveI : IsTrans Ptr (fun a b => less b a = false) := ⟨fun a b c h1 h2 => hneg c b a h2 h1⟩
  exact List.sorted_insertionSort (fun a b => less b a = false) l

theorem Less_asymm (heap : Ptr → MenuItem) (a b : Ptr) :
    MenuItemSlice.Less heap a b = true → MenuItemSlice.Less heap b a = false := by
  unfold MenuItemSlice.Less
  simp only [decide_eq_true_eq, decide_eq_false_iff_not]
  omega

theorem Less_negTrans (heap : Ptr → MenuItem) (a b c : Ptr) :
    MenuItemSlice.Less heap a b = false → MenuItemSlice.Less heap b c = false →
      MenuItemSlice.Less heap a c = false := by
  unfold MenuItemSlice.Less
  simp only [decide_eq_false_iff_not]
  omega

theorem FilteredOptions_search (sortFn : (Ptr → Ptr → Bool) → List Ptr → List Ptr)
    (lower : Char → Char) (mw : MenuWindow) (hne : mw.lastSearch ≠ "") :
    mw.FilteredOptions sortFn lower =
      (sortFn (MenuItemSlice.Less
          (FilteredOptions.loop lower (tokens mw.lastSearch) mw.Options mw.heap []).2)
        (FilteredOptions.loop lower (tokens mw.lastSearch) mw.Options mw.heap []).1,
       { mw with heap :=
          (FilteredOptions.loop lower (tokens mw.lastSearch) mw.Options mw.heap []).2 }) := by
  unfold MenuWindow.FilteredOptions tokens
  rw [if_neg hne]

theorem filter_score_eq (lower : Char → Char) (mw : MenuWindow) :
    mw.Options.filter (fun p => decide (0 < scoreOf lower (tokens mw.lastSearch) (mw.heap p))) =
      mw.Options.filter (fun p => decide (0 < matchScore lower mw.lastSearch (mw.heap p).Str)) := by
  apply List.filter_congr
  intro p _
  rw [scoreOf_eq]
  simp

/-- C3: for a non-empty search string, `FilteredOptions` returns exactly the options whose
match-score is positive, each as often as it occurs in the option list (so exactly once when
the options are distinct), and it stores that score in every option; the match-score is the
number of pairs (search token, option token) such that the lower-cased option token contains
the lower-cased search token. -/
theorem FilteredOptions_selects (sortFn : (Ptr → Ptr → Bool) → List Ptr → List Ptr)
    (lower : Char → Char) (mw : MenuWindow) (hsort : SortContract sortFn)
    (hne : mw.lastSearch ≠ "") :
    (mw.FilteredOptions sortFn lower).1.Perm
        (mw.Options.filter
          (fun p => decide (0 < matchScore lower mw.lastSearch (mw.heap p).Str))) ∧
      (∀ p, p ∈ (mw.FilteredOptions sortFn lower).1 ↔
        p ∈ mw.Options ∧ 0 < matchScore lower mw.lastSearch (mw.heap p).Str) ∧
      (mw.Options.Nodup → (mw.FilteredOptions sortFn lower).1.Nodup) ∧
      ∀ p ∈ mw.Options, ((mw.FilteredOptions sortFn lower).2.heap p).matches_ =
        (matchScore lower mw.lastSearch (mw.heap p).Str : ℤ) := by
  rw [FilteredOptions_search sortFn lower mw hne]
  obtain ⟨h1, h2⟩ := FilteredOptions_loop_spec lower (tokens mw.lastSearch) mw.Options mw.heap []
  have hperm : (sortFn (MenuItemSlice.Less
      (FilteredOptions.loop lower (tokens mw.lastSearch) mw.Options mw.heap []).2)
      (FilteredOptions.loop lower (tokens mw.lastSearch) mw.Options mw.heap []).1).Perm
      (mw.Options.filter
        (fun p => decide (0 < matchScore lower mw.lastSearch (mw.heap p).Str))) := by
    have := (hsort (MenuItemSlice.Less
      (FilteredOptions.loop lower (tokens mw.lastSearch) mw.Options mw.heap []).2)
      (FilteredOptions.loop lower (tokens mw.lastSearch) mw.Options mw.heap []).1).1
    rw [h1, List.nil_append, filter_score_eq] at this
    rw [h1, List.nil_append, filter_score_eq]
    exact this
  refine ⟨hperm, ?_, ?_, ?_⟩
  · intro p
    rw [hperm.mem_iff, List.mem_filter]
    simp
  · intro hnd
    exact hperm.nodup_iff.mpr (hnd.filter _)
  · intro p hp
    simp only
    rw [h2 p, if_pos hp]
    exact scoreOf_eq lower mw.lastSearch (mw.heap p)

/-- C3, the example of the claim: the options `["Apple", "Banana", "Pineapple"]` with the search
string `"ap"` yield exactly Apple and Pineapple. -/
theorem FilteredOptions_selects_witness :
    SortContract insertionSortFn ∧ appleWindow.lastSearch ≠ "" ∧
      ((appleWindow.FilteredOptions insertionSortFn Char.toLower).1.map
        (fun p => (appleWindow.heap p).Str)).Perm ["Apple", "Pineapple"] := by
  refine ⟨insertionSortFn_contract, by decide, ?_⟩
  have h := (FilteredOptions_selects insertionSortFn Char.toLower appleWindow
    insertionSortFn_contract (by decide)).1
  have e : appleWindow.Options.filter
      (fun p => decide (0 < matchScore Char.toLower appleWindow.lastSearch
        (appleWindow.heap p).Str)) = [0, 2] := by decide
  rw [e] at h
  exact h.map (fun p => (appleWindow.heap p).Str)

/-- C5: when the search string is empty, `FilteredOptions` returns the option list itself, the
same items in the same order, and leaves the window and every item as they were. -/
theorem FilteredOptions_empty_search (sortFn : (Ptr → Ptr → Bool) → List Ptr → List Ptr)
    (lower : Char → Char) (mw : MenuWindow) (h : mw.lastSearch = "") :
    mw.FilteredOptions sortFn lower = (mw.Options, mw) := by
  unfold MenuWindow.FilteredOptions
  rw [if_pos h]

/-- C5, at a concrete window: the three options of `appleWindow` with an empty search string. -/
theorem FilteredOptions_empty_search_witness :
    ({ appleWindow with lastSearch := "" } : MenuWindow).lastSearch = "" ∧
      (({ appleWindow with lastSearch := "" } : MenuWindow).FilteredOptions
        insertionSortFn Char.toLower).1 = [0, 1, 2] :=
  ⟨rfl, by
    rw [FilteredOptions_empty_search insertionSortFn Char.toLower
      { appleWindow with lastSearch := "" } rfl]
    decide⟩

/-- C6: for a non-empty search string the list returned by `FilteredOptions` is in ascending
order of match-score: for all positions `i < j` of the result, the score of the item at `i`
(the stored `matches` field, which is the match-score of its label) is at most that at `j`. -/
theorem FilteredOptions_sorted (sortFn : (Ptr → Ptr → Bool) → List Ptr → List Ptr)
    (lower : Char → Char) (mw : MenuWindow) (hsort : SortContract sortFn)
    (hne : mw.lastSearch ≠ "") (i j : ℕ) (p q : Ptr) (hij : i < j)
    (hp : (mw.FilteredOptions sortFn lower).1[i]? = some p)
    (hq : (mw.FilteredOptions sortFn lower).1[j]? = some q) :
    ((mw.FilteredOptions sortFn lower).2.heap p).matches_ ≤
        ((mw.FilteredOptions sortFn lower).2.heap q).matches_ ∧
      matchScore lower mw.lastSearch (mw.heap p).Str ≤
        matchScore lower mw.lastSearch (mw.heap q).Str := by
  rw [FilteredOptions_search sortFn lower mw hne] at hp hq ⊢
  obtain ⟨h1, h2⟩ := FilteredOptions_loop_spec lower (tokens mw.lastSearch) mw.Options mw.heap []
  obtain ⟨hperm, hsorted⟩ := hsort (MenuItemSlice.Less
    (FilteredOptions.loop lower (tokens mw.lastSearch) mw.Options mw.heap []).2)
    (FilteredOptions.loop lower (tokens mw.lastSearch) mw.Options mw.heap []).1
  have hs := hsorted (Less_asymm _) (Less_negTrans _)
  simp only at hp hq ⊢
  obtain ⟨hi, hpi⟩ := List.getElem?_eq_some_iff.mp hp
  obtain ⟨hj, hqj⟩ := List.getElem?_eq_some_iff.mp hq
  have hle := List.pairwise_iff_getElem.mp hs i j hi hj hij
  rw [hpi, hqj] at hle
  have hle2 : ((FilteredOptions.loop lower (tokens mw.lastSearch) mw.Options mw.heap []).2
        p).matches_ ≤
      ((FilteredOptions.loop lower (tokens mw.lastSearch) mw.Options mw.heap []).2
        q).matches_ := by
    unfold MenuItemSlice.Less at hle
    simpa using hle
  refine ⟨hle2, ?_⟩
  have hmem : ∀ x, x ∈ sortFn (MenuItemSlice.Less
      (FilteredOptions.loop lower (tokens mw.lastSearch) mw.Options mw.heap []).2)
      (FilteredOptions.loop lower (tokens mw.lastSearch) mw.Options mw.heap []).1 →
      ((FilteredOptions.loop lower (tokens mw.lastSearch) mw.Options mw.heap []).2
        x).matches_ = (matchScore lower mw.lastSearch (mw.heap x).Str : ℤ) := by
    intro x hx
    have hx2 : x ∈ mw.Options := by
      have := hperm.mem_iff.mp hx
      rw [h1, List.nil_append] at this
      exact (List.mem_filter.mp this).1
    rw [h2 x, if_pos hx2]
    exact scoreOf_eq lower mw.lastSearch (mw.heap x)
  rw [hmem p (hpi ▸ List.getElem_mem _), hmem q (hqj ▸ List.getElem_mem _)] at hle2
  exact_mod_cast hle2

/-- C6, at a concrete input: the labels `"ap ap"`, `"Apple"`, `"map_apt cap"` have the scores
2, 1 and 3 for the search string `"ap"`, and come out in the order 1, 2, 3. -/
theorem FilteredOptions_sorted_witness :
    SortContract insertionSortFn ∧ rankWindow.lastSearch ≠ "" ∧
      (rankWindow.FilteredOptions insertionSortFn Char.toLower).1 = [1, 0, 2] ∧
      matchScore Char.toLower rankWindow.lastSearch (rankWindow.heap 1).Str ≤
        matchScore Char.toLower rankWindow.lastSearch (rankWindow.heap 0).Str :=
  ⟨insertionSortFn_contract, by decide, by decide,
    (FilteredOptions_sorted insertionSortFn Char.toLower rankWindow insertionSortFn_contract
      (by decide) 0 1 1 0 (by decide) (by decide) (by decide)).2⟩

/-! ## Tokenization -/

theorem FieldsFunc_loop_spans (f : Char → Bool) :
    ∀ (s : List Char) (start : Option (List Char)) (spans : List (List Char)),
      FieldsFunc.loop f s start spans = spans ++ FieldsFunc.loop f s start [] := by
  intro s
  induction s with
  | nil => intro start spans; cases start <;> simp [FieldsFunc.loop]
  | cons r rest ih =>
    intro start spans
    unfold FieldsFunc.loop
    by_cases hr : f r = true
    · simp only [hr, if_true]
      cases start with
      | none => exact ih none spans
      | some cur =>
        simp only
        rw [ih none (spans ++ [cur]), ih none ([] ++ [cur])]
        simp
    · simp only [hr]
      cases start with
      | none => exact ih _ spans
      | some cur => exact ih _ spans

theorem FieldsFunc_loop_skip (f : Char → Bool) (pre x : List Char)
    (hpre : ∀ c ∈ pre, f c = true) :
    FieldsFunc.loop f (pre ++ x) none [] = FieldsFunc.loop f x none [] := by
  induction pre with
  | nil => rfl
  | cons c pre ih =>
    have hc : f c = true := hpre c (by simp)
    rw [List.cons_append]
    conv_lhs => unfold FieldsFunc.loop
    simp only [hc, if_true]
    exact ih (fun d hd => hpre d (by simp [hd]))

theorem FieldsFunc_loop_field (f : Char → Bool) (rest : List Char)
    (hrest : ∀ c, rest.head? = some c → f c = true) :
    ∀ (tok cur : List Char), (∀ c ∈ tok, f c = false) →
      FieldsFunc.loop f (tok ++ rest) (some cur) [] =
        (cur ++ tok) :: FieldsFunc.loop f rest none [] := by
  intro tok
  induction tok with
  | nil =>
    intro cur _
    cases rest with
    | nil => simp [FieldsFunc.loop]
    | cons c r =>
      have hc : f c = true := hrest c rfl
      rw [List.nil_append]
      conv_lhs => unfold FieldsFunc.loop
      conv_rhs => unfold FieldsFunc.loop
      simp only [hc, if_true]
      rw [FieldsFunc_loop_spans]
      simp
  | cons t tok ih =>
    intro cur htok
    have ht : f t = false := htok t (by simp)
    rw [List.cons_append]
    conv_lhs => unfold FieldsFunc.loop
    simp only [ht]
    rw [ih (cur ++ [t]) (fun d hd => htok d (by simp [hd]))]
    simp

theorem FieldsFunc_of_maximalRuns (f : Char → Bool) (s : List Char) (ts : List (List Char))
    (h : MaximalRuns f s ts) : ts = FieldsFunc s f := by
  unfold FieldsFunc
  induction h with
  | nil s hs =>
    have := FieldsFunc_loop_skip f s [] hs
    rw [List.append_nil] at this
    rw [this]; rfl
  | cons pre tok rest ts hpre hne htok hrest _ ih =>
    rw [FieldsFunc_loop_skip f pre _ hpre]
    cases tok with
    | nil => exact absurd rfl hne
    | cons t tok =>
      have ht : f t = false := htok t (by simp)
      rw [List.cons_append]
      conv_rhs => unfold FieldsFunc.loop
      simp only [ht]
      rw [FieldsFunc_loop_field f rest hrest tok [t] (fun d hd => htok d (by simp [hd]))]
      rw [ih]; rfl

theorem maximalRuns_sep_cons (f : Char → Bool) (c : Char) (hc : f c = true) (s : List Char)
    (ts : List (List Char)) (h : MaximalRuns f s ts) : MaximalRuns f (c :: s) ts := by
  cases h with
  | nil _ hs =>
    exact MaximalRuns.nil _ (fun d hd => by
      rcases List.mem_cons.mp hd with rfl | hd
      · exact hc
      · exact hs d hd)
  | cons pre tok rest ts hpre hne htok hrest hts =>
    have := MaximalRuns.cons (c :: pre) tok rest ts (fun d hd => by
      rcases List.mem_cons.mp hd with rfl | hd
      · exact hc
      · exact hpre d hd) hne htok hrest hts
    simpa using this

theorem maximalRuns_loop (f : Char → Bool) :
    ∀ (s : List Char),
      MaximalRuns f s (FieldsFunc.loop f s none []) ∧
      ∀ cur : List Char, ∃ tok rest ts, s = tok ++ rest ∧ (∀ c ∈ tok, f c = false) ∧
        (∀ c, rest.head? = some c → f c = true) ∧ MaximalRuns f rest ts ∧
        FieldsFunc.loop f s (some cur) [] = (cur ++ tok) :: ts := by
  intro s
  induction s with
  | nil =>
    refine ⟨MaximalRuns.nil _ (by simp), fun cur => ⟨[], [], [], rfl, by simp, by simp,
      MaximalRuns.nil _ (by simp), by simp [FieldsFunc.loop]⟩⟩
  | cons r s ih =>
    obtain ⟨ih1, ih2⟩ := ih
    by_cases hr : f r = true
    · constructor
      · conv => arg 3; unfold FieldsFunc.loop
        simp only [hr, if_true]
        exact maximalRuns_sep_cons f r hr s _ ih1
      · intro cur
        refine ⟨[], r :: s, FieldsFunc.loop f s none [], rfl, by simp,
          fun c hc => by simp at hc; rw [← hc]; exact hr,
          maximalRuns_sep_cons f r hr s _ ih1, ?_⟩
        conv_lhs => unfold FieldsFunc.loop
        simp only [hr, if_true]
        rw [FieldsFunc_loop_spans]
        simp
    · have hr2 : f r = false := by simpa using hr
      constructor
      · obtain ⟨tok, rest, ts, hs, htok, hrest, hts, hloop⟩ := ih2 [r]
        conv => arg 3; unfold FieldsFunc.loop
        simp only [hr2]
        rw [hloop, hs]
        have := MaximalRuns.cons [] (r :: tok) rest ts (by simp) (by simp)
          (fun d hd => by
            rcases List.mem_cons.mp hd with rfl | hd
            · exact hr2
            · exact htok d hd) hrest hts
        simpa using this
      · intro cur
        obtain ⟨tok, rest, ts, hs, htok, hrest, hts, hloop⟩ := ih2 (cur ++ [r])
        refine ⟨r :: tok, rest, ts, by rw [hs]; rfl, fun d hd => by
            rcases List.mem_cons.mp hd with rfl | hd
            · exact hr2
            · exact htok d hd, hrest, hts, ?_⟩
        conv_lhs => unfold FieldsFunc.loop
        simp only [hr2]
        rw [hloop]
        simp

theorem fieldsFunc_iff (c : Char) : fieldsFunc c = true ↔ c = ' ' ∨ c = '_' := by
  unfold fieldsFunc
  simp

/-- C4 (amended): in `FilteredOptions` the search string and every option label are tokenized
on the space character and the underscore only: for every string the tokens are the maximal
non-empty runs of characters that are neither `' '` nor `'_'`, in order, and these tokens are
what the stored score of every option is counted over. -/
theorem tokens_maximalRuns (s : String) :
    (∀ c, fieldsFunc c = true ↔ c = ' ' ∨ c = '_') ∧
      MaximalRuns fieldsFunc s.toList (tokens s) ∧
      (∀ ts, MaximalRuns fieldsFunc s.toList ts → ts = tokens s) ∧
      ∀ (sortFn : (Ptr → Ptr → Bool) → List Ptr → List Ptr) (lower : Char → Char)
        (mw : MenuWindow), mw.lastSearch ≠ "" → ∀ p ∈ mw.Options,
          ((mw.FilteredOptions sortFn lower).2.heap p).matches_ =
            countMatches lower (tokens mw.lastSearch) (tokens (mw.heap p).Str) := by
  refine ⟨fieldsFunc_iff, (maximalRuns_loop fieldsFunc s.toList).1,
    fun ts h => FieldsFunc_of_maximalRuns fieldsFunc s.toList ts h, ?_⟩
  intro sortFn lower mw hne p hp
  rw [FilteredOptions_search sortFn lower mw hne]
  simp only
  rw [(FilteredOptions_loop_spec lower (tokens mw.lastSearch) mw.Options mw.heap []).2 p,
    if_pos hp]
  rfl

/-- C4, at a concrete input: the tokens of `"map_apt cap"` and the score stored for it. -/
theorem tokens_maximalRuns_witness :
    rankWindow.lastSearch ≠ "" ∧ (2 : Ptr) ∈ rankWindow.Options ∧
      tokens "map_apt cap" = ["map".toList, "apt".toList, "cap".toList] ∧
      ((rankWindow.FilteredOptions insertionSortFn Char.toLower).2.heap 2).matches_ = 3 := by
  refine ⟨by decide, by decide, by decide, ?_⟩
  rw [(tokens_maximalRuns "").2.2.2 insertionSortFn Char.toLower rankWindow (by decide) 2
    (by decide)]
  decide

/-- C4, counterexample to the claim as stated: a tab is a whitespace character, so the maximal
runs of `"a\tb"` without whitespace and underscore are `a` and `b`, but `FilteredOptions`
takes the whole string as one token. -/
theorem tokens_counterexample :
    tokens "a\tb" = ["a\tb".toList] ∧
      MaximalRuns isWhitespaceOrUnderscore "a\tb".toList ["a".toList, "b".toList] ∧
      ¬ MaximalRuns isWhitespaceOrUnderscore "a\tb".toList (tokens "a\tb") := by
  refine ⟨by decide, ?_, ?_⟩
  · have h := (maximalRuns_loop isWhitespaceOrUnderscore "a\tb".toList).1
    have e : FieldsFunc.loop isWhitespaceOrUnderscore "a\tb".toList none [] =
        ["a".toList, "b".toList] := by decide
    rw [e] at h
    exact h
  · intro h
    have h2 := FieldsFunc_of_maximalRuns _ _ _ h
    revert h2
    decide


/-! ## Clamping, highlighting and marking -/

theorem index_of_inRange {α : Type} (l : List α) (i : ℤ) (h0 : 0 ≤ i) (h1 : i < l.length) :
    ∃ p, index l i = some p ∧ l[i.toNat]? = some p := by
  have hlt : i.toNat < l.length := by omega
  refine ⟨l[i.toNat], ?_, List.getElem?_eq_getElem hlt⟩
  unfold index
  rw [if_neg (by omega), List.get?_eq_getElem?, List.getElem?_eq_getElem hlt]

theorem CheckBounds_range (lw : MenuWindow) (i : ℤ) (hL : 0 < lw.Options.length) :
    0 ≤ lw.CheckBounds i ∧ lw.CheckBounds i < lw.Options.length := by
  unfold MenuWindow.CheckBounds
  split_ifs <;> omega

theorem CheckBounds_congr (lw lw2 : MenuWindow) (h : lw2.Options = lw.Options) (i : ℤ) :
    lw2.CheckBounds i = lw.CheckBounds i := by
  unfold MenuWindow.CheckBounds
  rw [h]

theorem CheckBounds_of_inRange (lw : MenuWindow) (i : ℤ) (h0 : 0 ≤ i)
    (h1 : i < lw.Options.length) : lw.CheckBounds i = i := by
  unfold MenuWindow.CheckBounds
  rw [if_neg (by omega), if_neg (by omega)]

/-- C7, highlight clamp: for a list of length `L > 0` and every integer `i`, `CheckBounds i`
lies in `[0, L - 1]`; it is `0` when `i < 0`, `L - 1` when `i ≥ L`, and `i` otherwise. -/
theorem CheckBounds_clamp (lw : MenuWindow) (i : ℤ) (hL : 0 < lw.Options.length) :
    (0 ≤ lw.CheckBounds i ∧ lw.CheckBounds i ≤ (lw.Options.length : ℤ) - 1) ∧
      (i < 0 → lw.CheckBounds i = 0) ∧
      ((lw.Options.length : ℤ) ≤ i → lw.CheckBounds i = (lw.Options.length : ℤ) - 1) ∧
      (0 ≤ i → i < lw.Options.length → lw.CheckBounds i = i) := by
  unfold MenuWindow.CheckBounds
  refine ⟨?_, ?_, ?_, ?_⟩
  · split_ifs <;> omega
  · intro h; rw [if_pos h]
  · intro h; rw [if_neg (by omega), if_pos (by omega)]
  · intro h0 h1; rw [if_neg (by omega), if_neg (by omega)]

/-- C7, at a concrete list of three options: `-5` clamps to `0`, `7` to `2`, `1` to itself. -/
theorem CheckBounds_clamp_witness :
    0 < appleWindow.Options.length ∧ appleWindow.CheckBounds (-5) = 0 ∧
      appleWindow.CheckBounds 7 = 2 ∧ appleWindow.CheckBounds 1 = 1 :=
  have h := fun i => CheckBounds_clamp appleWindow i (by decide)
  ⟨by decide, (h (-5)).2.1 (by decide), (h 7).2.2.1 (by decide),
    (h 1).2.2.2 (by decide) (by decide)⟩

theorem SetHighlighted_spec (lw : MenuWindow) (j : ℤ) (hne : lw.Options ≠ []) :
    ∃ s p, lw.SetHighlighted j = some s ∧ s.Options = lw.Options ∧
      s.Highlighted = lw.CheckBounds j ∧ s.Dirty = true ∧ s.lastSearch = lw.lastSearch ∧
      s.next = lw.next ∧
      lw.Options[(lw.CheckBounds j).toNat]? = some p ∧
      (∀ q, (s.heap q).Str = (lw.heap q).Str ∧ (s.heap q).Marked = (lw.heap q).Marked ∧
        (s.heap q).Info = (lw.heap q).Info ∧ (s.heap q).UserData = (lw.heap q).UserData ∧
        (s.heap q).matches_ = (lw.heap q).matches_) ∧
      ∀ q, (s.heap q).Highlighted =
        if q = p then true
        else if 0 ≤ lw.Highlighted ∧ lw.Highlighted < lw.Options.length ∧
            lw.Options[lw.Highlighted.toNat]? = some q then false
        else (lw.heap q).Highlighted := by
  have hL : 0 < lw.Options.length := List.length_pos.mpr hne
  -- the first half
  have h1 : ∃ lw1, lw.clearPrevious = some lw1 ∧ lw1.Options = lw.Options ∧
      lw1.Highlighted = lw.Highlighted ∧ lw1.lastSearch = lw.lastSearch ∧ lw1.next = lw.next ∧
      (∀ q, (lw1.heap q).Str = (lw.heap q).Str ∧ (lw1.heap q).Marked = (lw.heap q).Marked ∧
        (lw1.heap q).Info = (lw.heap q).Info ∧ (lw1.heap q).UserData = (lw.heap q).UserData ∧
        (lw1.heap q).matches_ = (lw.heap q).matches_) ∧
      ∀ q, (lw1.heap q).Highlighted =
        if 0 ≤ lw.Highlighted ∧ lw.Highlighted < lw.Options.length ∧
            lw.Options[lw.Highlighted.toNat]? = some q then false
        else (lw.heap q).Highlighted := by
    unfold MenuWindow.clearPrevious
    by_cases hr : lw.Highlighted < lw.Options.length ∧ lw.Highlighted ≥ 0
    · rw [if_pos hr]
      obtain ⟨p0, hp0, hget⟩ := index_of_inRange lw.Options lw.Highlighted hr.2 hr.1
      rw [hp0]
      refine ⟨_, rfl, rfl, rfl, rfl, rfl, ?_, ?_⟩
      · intro q
        by_cases hq : q = p0
        · subst hq; simp [MenuWindow.store]
        · simp [MenuWindow.store, Function.update_noteq hq]
      · intro q
        by_cases hq : q = p0
        · subst hq
          simp [MenuWindow.store, hget, hr.1, hr.2]
        · have : ¬ (lw.Options[lw.Highlighted.toNat]? = some q) := by
            rw [hget]; intro h; exact hq (Option.some.inj h).symm
          simp [MenuWindow.store, Function.update_noteq hq, this]
    · rw [if_neg hr]
      refine ⟨lw, rfl, rfl, rfl, rfl, rfl, fun q => ⟨rfl, rfl, rfl, rfl, rfl⟩, ?_⟩
      intro q
      rw [if_neg]
      rintro ⟨a, b, _⟩
      exact hr ⟨b, a⟩
  obtain ⟨lw1, hlw1, hopt, hhl, hls, hnx, hframe, hflag⟩ := h1
  obtain ⟨hc0, hc1⟩ := CheckBounds_range lw j hL
  obtain ⟨p, hp, hget⟩ := index_of_inRange lw.Options (lw.CheckBounds j) hc0 hc1
  unfold MenuWindow.SetHighlighted
  rw [if_neg (by omega), hlw1]
  simp only
  rw [CheckBounds_congr lw lw1 hopt, hopt, hp]
  refine ⟨_, p, rfl, hopt, rfl, rfl, hls, hnx, hget, ?_, ?_⟩
  · intro q
    by_cases hq : q = p
    · subst hq
      simpa [MenuWindow.store] using hframe q
    · simpa [MenuWindow.store, Function.update_noteq hq] using hframe q
  · intro q
    by_cases hq : q = p
    · subst hq
      simp [MenuWindow.store]
    · simp only [MenuWindow.store, Function.update_noteq hq, if_neg hq]
      exact hflag q


theorem wrapInt_of_inRange (z : ℤ) (h0 : -2 ^ 63 ≤ z) (h1 : z < 2 ^ 63) : wrapInt z = z := by
  unfold wrapInt
  norm_num at h0 h1 ⊢
  omega

theorem marked_spec (lw : MenuWindow) (i : ℤ) (hne : lw.Options ≠ []) :
    ∃ p, Discorder.index lw.Options (lw.CheckBounds i) = some p ∧
      lw.Options[(lw.CheckBounds i).toNat]? = some p := by
  have hL : 0 < lw.Options.length := List.length_pos.mpr hne
  obtain ⟨hc0, hc1⟩ := CheckBounds_range lw i hL
  exact index_of_inRange lw.Options (lw.CheckBounds i) hc0 hc1

theorem AddMarked_spec (lw : MenuWindow) (i : ℤ) (hne : lw.Options ≠ []) :
    ∃ s p, lw.AddMarked i = some s ∧ s.Options = lw.Options ∧
      s.Highlighted = lw.Highlighted ∧ s.Dirty = true ∧ s.lastSearch = lw.lastSearch ∧
      s.next = lw.next ∧ lw.Options[(lw.CheckBounds i).toNat]? = some p ∧
      s.heap = Function.update lw.heap p { lw.heap p with Marked := true } := by
  obtain ⟨p, hp, hget⟩ := marked_spec lw i hne
  unfold MenuWindow.AddMarked
  simp only [hp]
  exact ⟨_, p, rfl, rfl, rfl, rfl, rfl, rfl, hget, rfl⟩

theorem RemoveMarked_spec (lw : MenuWindow) (i : ℤ) (hne : lw.Options ≠ []) :
    ∃ s p, lw.RemoveMarked i = some s ∧ s.Options = lw.Options ∧
      s.Highlighted = lw.Highlighted ∧ s.Dirty = true ∧ s.lastSearch = lw.lastSearch ∧
      s.next = lw.next ∧ lw.Options[(lw.CheckBounds i).toNat]? = some p ∧
      s.heap = Function.update lw.heap p { lw.heap p with Marked := false } := by
  obtain ⟨p, hp, hget⟩ := marked_spec lw i hne
  unfold MenuWindow.RemoveMarked
  simp only [hp]
  exact ⟨_, p, rfl, rfl, rfl, rfl, rfl, rfl, hget, rfl⟩

theorem Scroll_eq (lw : MenuWindow) (dir : Direction) (a : ℤ) :
    lw.Scroll dir a = lw.SetHighlighted
      (match dir with
        | .DirUp => wrapInt (lw.Highlighted - a)
        | .DirDown => wrapInt (lw.Highlighted + a)
        | .DirEnd => (lw.Options.length : ℤ) - 1
        | .DirStart => 0) := by
  cases dir <;> rfl

/-- C8 (amended): for a non-empty option list of length `L` with highlighted index `h` and
every amount `a`, `Scroll(up, a)` sets the highlighted index to the clamp of `h - a` computed
in 64-bit wrapping arithmetic, `Scroll(down, a)` to the clamp of the wrapped `h + a`,
`Scroll(start, a)` to `0` and `Scroll(end, a)` to `L - 1`; the wrapped value is `h - a`
(`h + a`) itself whenever that lies in the range of `int`, and the clamp maps into
`[0, L - 1]`. -/
theorem Scroll_highlighted (lw : MenuWindow) (a : ℤ) (hne : lw.Options ≠ []) :
    (∃ s, lw.Scroll .DirUp a = some s ∧
        s.Highlighted = lw.CheckBounds (wrapInt (lw.Highlighted - a))) ∧
      (∃ s, lw.Scroll .DirDown a = some s ∧
        s.Highlighted = lw.CheckBounds (wrapInt (lw.Highlighted + a))) ∧
      (∃ s, lw.Scroll .DirStart a = some s ∧ s.Highlighted = 0) ∧
      (∃ s, lw.Scroll .DirEnd a = some s ∧ s.Highlighted = (lw.Options.length : ℤ) - 1) ∧
      (-2 ^ 63 ≤ lw.Highlighted - a → lw.Highlighted - a < 2 ^ 63 →
        wrapInt (lw.Highlighted - a) = lw.Highlighted - a) ∧
      (-2 ^ 63 ≤ lw.Highlighted + a → lw.Highlighted + a < 2 ^ 63 →
        wrapInt (lw.Highlighted + a) = lw.Highlighted + a) ∧
      ∀ j, 0 ≤ lw.CheckBounds j ∧ lw.CheckBounds j ≤ (lw.Options.length : ℤ) - 1 := by
  have hL : 0 < lw.Options.length := List.length_pos.mpr hne
  have key : ∀ j, ∃ s, lw.SetHighlighted j = some s ∧ s.Highlighted = lw.CheckBounds j := by
    intro j
    obtain ⟨s, _, hs, _, hh, _⟩ := SetHighlighted_spec lw j hne
    exact ⟨s, hs, hh⟩
  refine ⟨?_, ?_, ?_, ?_, wrapInt_of_inRange _, wrapInt_of_inRange _,
    fun j => by have := CheckBounds_range lw j hL; omega⟩
  · rw [Scroll_eq]; exact key _
  · rw [Scroll_eq]; exact key _
  · rw [Scroll_eq]
    obtain ⟨s, hs, hh⟩ := key 0
    exact ⟨s, hs, by rw [hh]; exact CheckBounds_of_inRange lw 0 (le_refl _) (by omega)⟩
  · rw [Scroll_eq]
    obtain ⟨s, hs, hh⟩ := key ((lw.Options.length : ℤ) - 1)
    exact ⟨s, hs, by rw [hh]; exact CheckBounds_of_inRange lw _ (by omega) (by omega)⟩

/-- C8, the scenario of the claim: with the options `["A", "B", "C"]` and the initial highlight
`0`, one `Scroll(down, 1)` gives `1`, two give `2`, and a third leaves it at `2`. -/
theorem Scroll_highlighted_witness :
    abcWindow.Options ≠ [] ∧
      (∃ s, abcWindow.Scroll .DirDown 1 = some s ∧ s.Highlighted = 1) ∧
      (((abcWindow.Scroll .DirDown 1).bind (fun s => s.Scroll .DirDown 1)).map
        (fun s => s.Highlighted)) = some 2 ∧
      ((((abcWindow.Scroll .DirDown 1).bind (fun s => s.Scroll .DirDown 1)).bind
        (fun s => s.Scroll .DirDown 1)).map (fun s => s.Highlighted)) = some 2 := by
  refine ⟨by decide, ?_, by decide, by decide⟩
  obtain ⟨s, hs, hh⟩ := (Scroll_highlighted abcWindow 1 (by decide)).2.1
  refine ⟨s, hs, ?_⟩
  rw [hh]
  decide

/-- C8, counterexample to the claim as stated: with three options, `h = 0` and the amount
`a = -2 ^ 63`, the difference `h - a` overflows to `-2 ^ 63`, so `Scroll(up, a)` sets the
highlighted index to `0`, while the clamp of `h - a = 2 ^ 63` is `2`. -/
theorem Scroll_counterexample :
    (appleWindow.Scroll .DirUp (-2 ^ 63)).map (fun s => s.Highlighted) = some 0 ∧
      appleWindow.CheckBounds (appleWindow.Highlighted - (-2 ^ 63)) = 2 := by
  constructor <;> decide

theorem nodup_index_unique {l : List Ptr} (hnd : l.Nodup) {i j : ℕ} {p : Ptr}
    (hi : l[i]? = some p) (hj : l[j]? = some p) : i = j := by
  obtain ⟨hi1, hi2⟩ := List.getElem?_eq_some_iff.mp hi
  obtain ⟨hj1, hj2⟩ := List.getElem?_eq_some_iff.mp hj
  exact (List.Nodup.getElem_inj_iff hnd).mp (hi2.trans hj2.symm)

theorem HighlightInv_congr (lw s : MenuWindow) (ho : s.Options = lw.Options)
    (hh : s.Highlighted = lw.Highlighted)
    (hf : ∀ q, (s.heap q).Highlighted = (lw.heap q).Highlighted) (hinv : HighlightInv lw) :
    HighlightInv s := by
  unfold HighlightInv at *
  rw [ho, hh]
  refine ⟨hinv.1, hinv.2.1, ?_⟩
  intro i p hp
  rw [hf p]
  exact hinv.2.2 i p hp

theorem SetHighlighted_inv (lw : MenuWindow) (hne : lw.Options ≠ []) (hnd : lw.Options.Nodup)
    (hinv : HighlightInv lw) (j : ℤ) :
    ∃ s, lw.SetHighlighted j = some s ∧ s.Options = lw.Options ∧ HighlightInv s := by
  have hL : 0 < lw.Options.length := List.length_pos.mpr hne
  obtain ⟨s, p, hs, ho, hh, _, _, _, hget, _, hflag⟩ := SetHighlighted_spec lw j hne
  obtain ⟨hc0, hc1⟩ := CheckBounds_range lw j hL
  obtain ⟨h0, h1, hold⟩ := hinv
  refine ⟨s, hs, ho, ?_⟩
  unfold HighlightInv
  rw [ho, hh]
  refine ⟨hc0, hc1, ?_⟩
  intro i q hq
  rw [hflag q]
  by_cases hqp : q = p
  · subst hqp
    rw [if_pos rfl]
    have := nodup_index_unique hnd hq hget
    constructor
    · intro _; omega
    · intro _; rfl
  · rw [if_neg hqp]
    have hik : (i : ℤ) ≠ lw.CheckBounds j := by
      intro h
      have : i = (lw.CheckBounds j).toNat := by omega
      rw [this, hget] at hq
      exact hqp (Option.some.inj hq).symm
    by_cases hprev : lw.Options[lw.Highlighted.toNat]? = some q
    · rw [if_pos ⟨h0, h1, hprev⟩]
      simp [hik]
    · rw [if_neg (fun h => hprev h.2.2)]
      rw [hold i q hq]
      constructor
      · intro h
        have : i = lw.Highlighted.toNat := by omega
        rw [this] at hq
        exact absurd hq hprev
      · intro h; exact absurd h hik

/-- C9, highlight invariant: for a non-empty list of distinct items, the predicate "the
highlighted index lies in `[0, length)` and an item carries `Highlighted = true` exactly when it
is the item at the highlighted index" is preserved by `SetHighlighted`, `Scroll`, `AddMarked`
and `RemoveMarked`, for all integer arguments and every direction; none of them fails. -/
theorem HighlightInv_preserved (lw : MenuWindow) (hne : lw.Options ≠ [])
    (hnd : lw.Options.Nodup) (hinv : HighlightInv lw) :
    (∀ j, ∃ s, lw.SetHighlighted j = some s ∧ s.Options = lw.Options ∧ HighlightInv s) ∧
      (∀ dir a, ∃ s, lw.Scroll dir a = some s ∧ s.Options = lw.Options ∧ HighlightInv s) ∧
      (∀ i, ∃ s, lw.AddMarked i = some s ∧ s.Options = lw.Options ∧ HighlightInv s) ∧
      (∀ i, ∃ s, lw.RemoveMarked i = some s ∧ s.Options = lw.Options ∧ HighlightInv s) := by
  refine ⟨SetHighlighted_inv lw hne hnd hinv, ?_, ?_, ?_⟩
  · intro dir a
    rw [Scroll_eq]
    exact SetHighlighted_inv lw hne hnd hinv _
  · intro i
    obtain ⟨s, p, hs, ho, hh, _, _, _, _, hheap⟩ := AddMarked_spec lw i hne
    refine ⟨s, hs, ho, HighlightInv_congr lw s ho hh ?_ hinv⟩
    intro q
    rw [hheap]
    by_cases hq : q = p
    · subst hq; simp
    · simp [Function.update_noteq hq]
  · intro i
    obtain ⟨s, p, hs, ho, hh, _, _, _, _, hheap⟩ := RemoveMarked_spec lw i hne
    refine ⟨s, hs, ho, HighlightInv_congr lw s ho hh ?_ hinv⟩
    intro q
    rw [hheap]
    by_cases hq : q = p
    · subst hq; simp
    · simp [Function.update_noteq hq]

theorem abcWindow_inv : HighlightInv abcWindow := by
  refine ⟨by decide, by decide, ?_⟩
  intro i p hp
  have ho : abcWindow.Options = [0, 1, 2] := by decide
  rw [ho] at hp
  match i, hp with
  | 0, hp => cases hp; decide
  | 1, hp => cases hp; decide
  | 2, hp => cases hp; decide
  | n + 3, hp => simp at hp

/-- C9, at a concrete window: the invariant holds for the options `["A", "B", "C"]` with the
highlight `0`, and still holds after `SetHighlighted 7`, which moves the highlight to `2`. -/
theorem HighlightInv_preserved_witness :
    abcWindow.Options ≠ [] ∧ abcWindow.Options.Nodup ∧ HighlightInv abcWindow ∧
      ∃ s, abcWindow.SetHighlighted 7 = some s ∧ s.Options = abcWindow.Options ∧
        HighlightInv s :=
  ⟨by decide, by decide, abcWindow_inv,
    (HighlightInv_preserved abcWindow (by decide) (by decide) abcWindow_inv).1 7⟩


/-! ## `SetOptions` and `SetOptionsString` -/

theorem SetOptionsString_loop_spec (hl : ℤ) :
    ∀ (options : List String) (k : ℕ) (slots : List Ptr) (heap : Ptr → MenuItem) (next : ℕ),
      (MenuWindow.SetOptionsString.loop hl options k slots heap next).1 =
          slots ++ List.range' next options.length ∧
        (MenuWindow.SetOptionsString.loop hl options k slots heap next).2.2 =
          next + options.length ∧
        (∀ p : ℕ, p < next →
          (MenuWindow.SetOptionsString.loop hl options k slots heap next).2.1 p = heap p) ∧
        ∀ (i : ℕ) (v : String), options[i]? = some v →
          (MenuWindow.SetOptionsString.loop hl options k slots heap next).2.1 (next + i) =
            ⟨v, false, decide (((k + i : ℕ) : ℤ) = hl), "", none, 0⟩ := by
  intro options
  induction options with
  | nil =>
    intro k slots heap next
    simp [MenuWindow.SetOptionsString.loop]
  | cons v rest ih =>
    intro k slots heap next
    have step : MenuWindow.SetOptionsString.loop hl (v :: rest) k slots heap next =
        MenuWindow.SetOptionsString.loop hl rest (k + 1) (slots ++ [next])
          (Function.update heap next ⟨v, false, decide ((k : ℤ) = hl), "", none, 0⟩)
          (next + 1) := by
      conv_lhs => unfold MenuWindow.SetOptionsString.loop
      by_cases hk : (k : ℤ) = hl <;> simp [hk]
    rw [step]
    obtain ⟨h1, h2, h3, h4⟩ := ih (k + 1) (slots ++ [next])
      (Function.update heap next ⟨v, false, decide ((k : ℤ) = hl), "", none, 0⟩) (next + 1)
    refine ⟨?_, ?_, ?_, ?_⟩
    · rw [h1, List.length_cons, List.range'_succ]
      simp
    · rw [h2, List.length_cons, Nat.add_assoc, Nat.add_comm 1]
    · intro p hp
      rw [h3 p (by omega), Function.update_noteq (Nat.ne_of_lt hp)]
    · intro i w hw
      cases i with
      | zero =>
        simp only [List.getElem?_cons_zero, Option.some.injEq] at hw
        subst hw
        simp only [Nat.add_zero]
        rw [h3 next (by omega), Function.update_same]
      | succ i =>
        have := h4 i w (by simpa using hw)
        have e : next + (i + 1) = next + 1 + i := by omega
        have e2 : k + (i + 1) = k + 1 + i := by omega
        rw [e, e2]
        exact this

/-- C10 (amended): for every prior state, after `SetOptions` the option list is the given
sequence, the dirty flag is set, and the highlighted index and every item are as before; after
`SetOptionsString` the option list consists of new, distinct items carrying the given labels in
order, unmarked, the one at the old highlighted index (if any) flagged as highlighted, the
dirty flag is set and the highlighted index is as before.  The highlighted index is not reset:
for a non-empty new list it is only its clamp `CheckBounds`, as read by `GetHighlighted`, that
lies in `[0, length)`. -/
theorem SetOptions_spec (lw : MenuWindow) (options : List Ptr) (labels : List String) :
    ((lw.SetOptions options).Options = options ∧ (lw.SetOptions options).Dirty = true ∧
        (lw.SetOptions options).Highlighted = lw.Highlighted ∧
        (lw.SetOptions options).heap = lw.heap ∧
        (options ≠ [] →
          0 ≤ (lw.SetOptions options).CheckBounds (lw.SetOptions options).Highlighted ∧
          (lw.SetOptions options).CheckBounds (lw.SetOptions options).Highlighted <
            options.length)) ∧
      ((lw.SetOptionsString labels).Options.length = labels.length ∧
        (lw.SetOptionsString labels).Options.Nodup ∧
        (∀ (k : ℕ) (v : String), labels[k]? = some v →
          ∃ p, (lw.SetOptionsString labels).Options[k]? = some p ∧ lw.next ≤ p ∧
            (lw.SetOptionsString labels).heap p =
              ⟨v, false, decide ((k : ℤ) = lw.Highlighted), "", none, 0⟩) ∧
        (∀ p : ℕ, p < lw.next → (lw.SetOptionsString labels).heap p = lw.heap p) ∧
        (lw.SetOptionsString labels).Dirty = true ∧
        (lw.SetOptionsString labels).Highlighted = lw.Highlighted ∧
        (labels ≠ [] →
          0 ≤ (lw.SetOptionsString labels).CheckBounds (lw.SetOptionsString labels).Highlighted ∧
          (lw.SetOptionsString labels).CheckBounds (lw.SetOptionsString labels).Highlighted <
            labels.length)) := by
  obtain ⟨h1, _, h3, h4⟩ := SetOptionsString_loop_spec lw.Highlighted labels 0 [] lw.heap lw.next
  have hopt : (lw.SetOptionsString labels).Options = List.range' lw.next labels.length := by
    unfold MenuWindow.SetOptionsString
    simp only
    rw [h1, List.nil_append]
  have hlen : (lw.SetOptionsString labels).Options.length = labels.length := by
    rw [hopt, List.length_range']
  constructor
  · refine ⟨rfl, rfl, rfl, rfl, ?_⟩
    intro hne
    exact CheckBounds_range (lw.SetOptions options) _ (List.length_pos.mpr hne)
  · refine ⟨hlen, ?_, ?_, h3, rfl, rfl, ?_⟩
    · rw [hopt]; exact List.nodup_range' _ _
    · intro k v hk
      have hk2 : k < labels.length := (List.getElem?_eq_some_iff.mp hk).1
      refine ⟨lw.next + k, ?_, Nat.le_add_right _ _, ?_⟩
      · rw [hopt, List.getElem?_range' _ _ hk2]
        simp
      · have := h4 k v hk
        rw [Nat.zero_add] at this
        exact this
    · intro hne
      have := CheckBounds_range (lw.SetOptionsString labels)
        (lw.SetOptionsString labels).Highlighted
        (by rw [hlen]; exact List.length_pos.mpr hne)
      rw [hlen] at this
      exact this


/-- C10, at a concrete input: a window whose highlighted index is `5` receives three options;
the clamp of the stored index lies in `[0, 3)`. -/
theorem SetOptions_spec_witness :
    ([0, 1, 2] : List Ptr) ≠ [] ∧
      0 ≤ ((emptyWindow 5 "").SetOptions [0, 1, 2]).CheckBounds
        ((emptyWindow 5 "").SetOptions [0, 1, 2]).Highlighted ∧
      ((emptyWindow 5 "").SetOptions [0, 1, 2]).CheckBounds
        ((emptyWindow 5 "").SetOptions [0, 1, 2]).Highlighted < ([0, 1, 2] : List Ptr).length :=
  ⟨by decide,
    (SetOptions_spec (emptyWindow 5 "") [0, 1, 2] ["A", "B", "C"]).1.2.2.2.2 (by decide)⟩

/-- C10, counterexample to the claim as stated: a window with six options is scrolled to the
last one (index `5`) and then receives three options, through `SetOptionsString` or through
`SetOptions`; the highlighted index is still `5`, which is not below the new length `3`. -/
theorem SetOptions_counterexample :
    (sixWindow.SetHighlighted 5).map
        (fun s => ((s.SetOptionsString ["A", "B", "C"]).Highlighted,
          (s.SetOptionsString ["A", "B", "C"]).Options.length)) = some (5, 3) ∧
      (sixWindow.SetHighlighted 5).map
        (fun s => ((s.SetOptions [0, 1, 2]).Highlighted,
          (s.SetOptions [0, 1, 2]).Options.length)) = some (5, 3) ∧
      ¬ ((5 : ℤ) < ((3 : ℕ) : ℤ)) := by
  refine ⟨by decide, by decide, by decide⟩


/-! ## The empty option list -/

theorem index_none_of_neg {α : Type} (l : List α) (i : ℤ) (h : i < 0) : index l i = none := by
  unfold index
  rw [if_pos h]

theorem index_nil {α : Type} (i : ℤ) : index ([] : List α) i = none := by
  unfold index
  split_ifs <;> simp

theorem index_isSome_iff {α : Type} (l : List α) (i : ℤ) :
    (index l i).isSome = true ↔ 0 ≤ i ∧ i < l.length := by
  constructor
  · intro h
    by_contra hc
    have : index l i = none := by
      unfold index
      by_cases h0 : i < 0
      · rw [if_pos h0]
      · rw [if_neg h0, List.get?_eq_getElem?, List.getElem?_eq_none]
        omega
    rw [this] at h
    simp at h
  · rintro ⟨h0, h1⟩
    obtain ⟨p, hp, _⟩ := index_of_inRange l i h0 h1
    rw [hp]; rfl

/-- C11: for the empty option list and every stored highlighted index, `GetHighlighted`
indexes the option slice out of range (at `-1`, or at `0` for a negative stored index) and
panics instead of reporting an absent result; for a non-empty list it returns the item at the
clamped highlighted index. -/
theorem GetHighlighted_spec (lw : MenuWindow) :
    (lw.Options = [] → lw.GetHighlighted = none ∧
      (lw.CheckBounds lw.Highlighted = -1 ∨ lw.CheckBounds lw.Highlighted = 0)) ∧
      (lw.Options ≠ [] → ∃ p, lw.GetHighlighted = some p ∧
        lw.Options[(lw.CheckBounds lw.Highlighted).toNat]? = some p ∧
        0 ≤ lw.CheckBounds lw.Highlighted ∧
        lw.CheckBounds lw.Highlighted < lw.Options.length) := by
  constructor
  · intro h
    unfold MenuWindow.GetHighlighted MenuWindow.CheckBounds
    rw [h]
    refine ⟨index_nil _, ?_⟩
    simp only [List.length_nil]
    by_cases h0 : lw.Highlighted < 0
    · right; rw [if_pos h0]
    · left
      rw [if_neg h0, if_pos (by push_cast; omega)]
      norm_num
  · intro h
    obtain ⟨h0, h1⟩ := CheckBounds_range lw lw.Highlighted (List.length_pos.mpr h)
    obtain ⟨p, hp, hget⟩ := index_of_inRange lw.Options _ h0 h1
    exact ⟨p, hp, hget, h0, h1⟩

/-- C11, at the failing input and at a non-empty list: a window without options panics, at
index `-1`; the window with the options `["A", "B", "C"]` returns its first item. -/
theorem GetHighlighted_spec_witness :
    (emptyWindow 0 "").Options = [] ∧ (emptyWindow 0 "").GetHighlighted = none ∧
      (emptyWindow 0 "").CheckBounds (emptyWindow 0 "").Highlighted = -1 ∧
      abcWindow.Options ≠ [] ∧ abcWindow.GetHighlighted = some 0 := by
  refine ⟨rfl, ((GetHighlighted_spec (emptyWindow 0 "")).1 rfl).1, by decide, by decide,
    by decide⟩

/-- C12: `SetHighlighted` and `Scroll` never index out of range, on any option list and for
any argument; `AddMarked`, `RemoveMarked` and `GetHighlighted` index out of range (and panic)
exactly on the empty option list. -/
theorem index_operations_safety (lw : MenuWindow) :
    (∀ j, (lw.SetHighlighted j).isSome = true) ∧
      (∀ dir a, (lw.Scroll dir a).isSome = true) ∧
      (∀ i, (lw.AddMarked i).isSome = true ↔ lw.Options ≠ []) ∧
      (∀ i, (lw.RemoveMarked i).isSome = true ↔ lw.Options ≠ []) ∧
      (lw.GetHighlighted.isSome = true ↔ lw.Options ≠ []) := by
  have hset : ∀ j, (lw.SetHighlighted j).isSome = true := by
    intro j
    by_cases h : lw.Options = []
    · unfold MenuWindow.SetHighlighted
      rw [if_pos (by rw [h]; simp)]
      rfl
    · obtain ⟨s, _, hs, _⟩ := SetHighlighted_spec lw j h
      rw [hs]; rfl
  refine ⟨hset, ?_, ?_, ?_, ?_⟩
  · intro dir a
    rw [Scroll_eq]
    exact hset _
  · intro i
    constructor
    · intro h hnil
      unfold MenuWindow.AddMarked at h
      simp only [hnil, index_nil] at h
      simp at h
    · intro h
      obtain ⟨s, _, hs, _⟩ := AddMarked_spec lw i h
      rw [hs]; rfl
  · intro i
    constructor
    · intro h hnil
      unfold MenuWindow.RemoveMarked at h
      simp only [hnil, index_nil] at h
      simp at h
    · intro h
      obtain ⟨s, _, hs, _⟩ := RemoveMarked_spec lw i h
      rw [hs]; rfl
  · constructor
    · intro h hnil
      unfold MenuWindow.GetHighlighted at h
      rw [hnil, index_nil] at h
      simp at h
    · intro h
      obtain ⟨h0, h1⟩ := CheckBounds_range lw lw.Highlighted (List.length_pos.mpr h)
      obtain ⟨p, hp, _⟩ := index_of_inRange lw.Options _ h0 h1
      unfold MenuWindow.GetHighlighted
      rw [hp]; rfl

/-- C12, at the failing input: on a window without options `SetHighlighted` and `Scroll`
return normally, while `AddMarked 0`, `RemoveMarked 0` and `GetHighlighted` panic. -/
theorem index_operations_safety_witness :
    ((emptyWindow 0 "").SetHighlighted 0).isSome = true ∧
      ((emptyWindow 0 "").Scroll .DirDown 1).isSome = true ∧
      ((emptyWindow 0 "").AddMarked 0).isSome = false ∧
      ((emptyWindow 0 "").RemoveMarked 0).isSome = false ∧
      (emptyWindow 0 "").GetHighlighted.isSome = false := by
  have h := index_operations_safety (emptyWindow 0 "")
  have hnil : ¬ ((emptyWindow 0 "").Options ≠ []) := by decide
  refine ⟨h.1 0, h.2.1 .DirDown 1, ?_, ?_, ?_⟩
  · exact Bool.eq_false_iff.mpr (fun hs => hnil ((h.2.2.1 0).mp hs))
  · exact Bool.eq_false_iff.mpr (fun hs => hnil ((h.2.2.2.1 0).mp hs))
  · exact Bool.eq_false_iff.mpr (fun hs => hnil (h.2.2.2.2.mp hs))

/-- C13 (amended): for the empty option list `CheckBounds i` is `-1` for every index `i ≥ 0`
and `0` for every index `i < 0`. -/
theorem CheckBounds_empty (lw : MenuWindow) (i : ℤ) (h : lw.Options = []) :
    (0 ≤ i → lw.CheckBounds i = -1) ∧ (i < 0 → lw.CheckBounds i = 0) := by
  unfold MenuWindow.CheckBounds
  rw [h]
  simp only [List.length_nil]
  constructor
  · intro h0
    rw [if_neg (by omega), if_pos (by simpa using h0)]
    simp
  · intro h0
    rw [if_pos h0]

/-- C13, at a concrete input: on a window without options, `CheckBounds 3 = -1`. -/
theorem CheckBounds_empty_witness :
    (emptyWindow 0 "").Options = [] ∧ (emptyWindow 0 "").CheckBounds 3 = -1 :=
  ⟨rfl, (CheckBounds_empty (emptyWindow 0 "") 3 rfl).1 (by decide)⟩

/-- C13, counterexample to the claim as stated: on a window without options,
`CheckBounds (-1)` is `0`, not `-1`. -/
theorem CheckBounds_empty_counterexample :
    (emptyWindow 0 "").Options = [] ∧ (emptyWindow 0 "").CheckBounds (-1) = 0 ∧
      (emptyWindow 0 "").CheckBounds (-1) ≠ -1 := by
  refine ⟨rfl, by decide, by decide⟩

/-- C14, marking/highlight independence: for a non-empty list of distinct items, `AddMarked i`
and `RemoveMarked i` set the marked flag of the item at the clamped index and the dirty flag,
and leave every other object, every field other than `Marked` of that item (its highlighted
flag included), the option list, the highlighted index and the marked flag of the item at
every other position unchanged; `SetHighlighted j` leaves every marked flag unchanged. -/
theorem marking_independent (lw : MenuWindow) (hne : lw.Options ≠ [])
    (hnd : lw.Options.Nodup) :
    (∀ (i : ℤ) (b : Bool), ∃ s p,
        (if b = true then lw.AddMarked i else lw.RemoveMarked i) = some s ∧
        lw.Options[(lw.CheckBounds i).toNat]? = some p ∧
        s.Options = lw.Options ∧ s.Highlighted = lw.Highlighted ∧
        s.lastSearch = lw.lastSearch ∧ s.Dirty = true ∧
        s.heap p = { lw.heap p with Marked := b } ∧
        (∀ q, q ≠ p → s.heap q = lw.heap q) ∧
        (∀ q, (s.heap q).Highlighted = (lw.heap q).Highlighted) ∧
        ∀ (k : ℕ) (q : Ptr), lw.Options[k]? = some q → (k : ℤ) ≠ lw.CheckBounds i →
          (s.heap q).Marked = (lw.heap q).Marked) ∧
      ∀ j : ℤ, ∃ s, lw.SetHighlighted j = some s ∧ s.Options = lw.Options ∧
        ∀ q, (s.heap q).Marked = (lw.heap q).Marked := by
  have hL : 0 < lw.Options.length := List.length_pos.mpr hne
  constructor
  · intro i b
    have key : ∃ s p, (if b = true then lw.AddMarked i else lw.RemoveMarked i) = some s ∧
        s.Options = lw.Options ∧ s.Highlighted = lw.Highlighted ∧ s.Dirty = true ∧
        s.lastSearch = lw.lastSearch ∧ lw.Options[(lw.CheckBounds i).toNat]? = some p ∧
        s.heap = Function.update lw.heap p { lw.heap p with Marked := b } := by
      cases b with
      | true =>
        obtain ⟨s, p, hs, ho, hh, hd, hl, _, hget, hheap⟩ := AddMarked_spec lw i hne
        exact ⟨s, p, by simpa using hs, ho, hh, hd, hl, hget, hheap⟩
      | false =>
        obtain ⟨s, p, hs, ho, hh, hd, hl, _, hget, hheap⟩ := RemoveMarked_spec lw i hne
        exact ⟨s, p, by simpa using hs, ho, hh, hd, hl, hget, hheap⟩
    obtain ⟨s, p, hs, ho, hh, hd, hl, hget, hheap⟩ := key
    obtain ⟨hc0, _⟩ := CheckBounds_range lw i hL
    refine ⟨s, p, hs, hget, ho, hh, hl, hd, ?_, ?_, ?_, ?_⟩
    · rw [hheap, Function.update_same]
    · intro q hq
      rw [hheap, Function.update_noteq hq]
    · intro q
      rw [hheap]
      by_cases hq : q = p
      · subst hq; simp
      · rw [Function.update_noteq hq]
    · intro k q hk hkne
      have hq : q ≠ p := by
        intro hqp
        subst hqp
        have := nodup_index_unique hnd hk hget
        omega
      rw [hheap, Function.update_noteq hq]
  · intro j
    obtain ⟨s, _, hs, ho, _, _, _, _, _, hframe, _⟩ := SetHighlighted_spec lw j hne
    exact ⟨s, hs, ho, fun q => (hframe q).2.1⟩

/-- C14, at a concrete window: marking the second of the options `["A", "B", "C"]` keeps the
highlighted index `0`, and highlighting the third keeps every marked flag. -/
theorem marking_independent_witness :
    abcWindow.Options ≠ [] ∧ abcWindow.Options.Nodup ∧
      (∃ s p, abcWindow.AddMarked 1 = some s ∧ abcWindow.Options[1]? = some p ∧
        s.Highlighted = 0 ∧ (s.heap p).Marked = true ∧
        ∀ q, (s.heap q).Highlighted = (abcWindow.heap q).Highlighted) ∧
      ∃ s, abcWindow.SetHighlighted 2 = some s ∧
        ∀ q, (s.heap q).Marked = (abcWindow.heap q).Marked := by
  have h := marking_independent abcWindow (by decide) (by decide)
  refine ⟨by decide, by decide, ?_, ?_⟩
  · obtain ⟨s, p, hs, hget, _, hh, _, _, hp, _, hflag, _⟩ := h.1 1 true
    have e : (abcWindow.CheckBounds 1).toNat = 1 := by decide
    rw [e] at hget
    refine ⟨s, p, by simpa using hs, hget, ?_, ?_, hflag⟩
    · rw [hh]; decide
    · rw [hp]
  · obtain ⟨s, hs, _, hm⟩ := h.2 2
    exact ⟨s, hs, hm⟩


/-! ## `SetCells` -/

theorem divmod_of_eq {m x y k : ℤ} (hm : 0 < m) (hx0 : 0 ≤ x) (hx : x < m)
    (hk : k = y * m + x) : k / m = y ∧ k % m = x :=
  (Int.ediv_emod_unique hm).mpr ⟨by rw [hk]; ring, hx0, hx⟩

theorem cellPosition_eq (startX startY width : ℤ) (k : ℕ) (x y : ℤ) (c : Cell)
    (hx0 : 0 ≤ x) (hxw : x ≤ width) (hk : (k : ℤ) = y * (width + 1) + x) :
    cellPosition startX startY width k c = ⟨wrapInt (x + startX), wrapInt (y + startY), c⟩ := by
  obtain ⟨h1, h2⟩ := divmod_of_eq (by omega : 0 < width + 1) hx0 (by omega) hk
  unfold cellPosition
  rw [h1, h2]

theorem expectedWrites_cons (startX startY width : ℤ) (k : ℕ) (c : Cell) (cells : List Cell) :
    expectedWrites startX startY width k (c :: cells) =
      cellPosition startX startY width k c :: expectedWrites startX startY width (k + 1) cells :=
  rfl

theorem SetCells_loop_unbounded (startX startY width : ℤ) (hw : 0 ≤ width) :
    ∀ (cells : List Cell) (k : ℕ) (x y : ℤ) (out : List CellWrite),
      0 ≤ x → x ≤ width → (k : ℤ) = y * (width + 1) + x →
      SetCells.loop startX startY width 0 cells x y out =
        (out ++ expectedWrites startX startY width k cells,
          ((k + cells.length : ℕ) : ℤ) / (width + 1) + 1) := by
  intro cells
  induction cells with
  | nil =>
    intro k x y out hx0 hxw hk
    obtain ⟨h1, _⟩ := divmod_of_eq (by omega : 0 < width + 1) hx0 (by omega) hk
    simp [SetCells.loop, expectedWrites, h1]
  | cons c rest ih =>
    intro k x y out hx0 hxw hk
    unfold SetCells.loop
    simp only [ne_eq, not_true_eq_false, false_and, if_false]
    rw [expectedWrites_cons, cellPosition_eq startX startY width k x y c hx0 hxw hk]
    have hlen : k + (c :: rest).length = (k + 1) + rest.length := by
      simp only [List.length_cons]; omega
    rw [hlen]
    by_cases hwrap : x + 1 > width
    · rw [if_pos hwrap]
      rw [ih (k + 1) 0 (y + 1) _ (le_refl _) hw (by push_cast; rw [hk]; ring_nf; omega)]
      simp
    · rw [if_neg hwrap]
      rw [ih (k + 1) (x + 1) y _ (by omega) (by omega) (by push_cast; rw [hk]; ring)]
      simp

theorem SetCells_loop_bounded (startX startY width height : ℤ) (hw : 0 ≤ width)
    (hh : 1 ≤ height) :
    ∀ (cells : List Cell) (k : ℕ) (x y : ℤ) (out : List CellWrite),
      0 ≤ x → x ≤ width → (k : ℤ) = y * (width + 1) + x → y < height →
      SetCells.loop startX startY width height cells x y out =
        (out ++ expectedWrites startX startY width k
            (cells.take (height * (width + 1) - k).toNat),
          if height * (width + 1) ≤ ((k + cells.length : ℕ) : ℤ) then height
          else ((k + cells.length : ℕ) : ℤ) / (width + 1) + 1) := by
  intro cells
  induction cells with
  | nil =>
    intro k x y out hx0 hxw hk hy
    obtain ⟨h1, _⟩ := divmod_of_eq (by omega : 0 < width + 1) hx0 (by omega) hk
    have hlt : ¬ height * (width + 1) ≤ ((k + ([] : List Cell).length : ℕ) : ℤ) := by
      simp only [List.length_nil, Nat.add_zero]
      have : (y + 1) * (width + 1) ≤ height * (width + 1) :=
        mul_le_mul_of_nonneg_right (by omega) (by omega)
      nlinarith
    rw [if_neg hlt]
    simp [SetCells.loop, expectedWrites, h1]
  | cons c rest ih =>
    intro k x y out hx0 hxw hk hy
    have hmono : (y + 1) * (width + 1) ≤ height * (width + 1) :=
      mul_le_mul_of_nonneg_right (by omega) (by omega)
    have hpos : 1 ≤ height * (width + 1) - k := by nlinarith
    have htake : (height * (width + 1) - k).toNat =
        (height * (width + 1) - ((k + 1 : ℕ) : ℤ)).toNat + 1 := by
      push_cast; omega
    have hlen : k + (c :: rest).length = (k + 1) + rest.length := by
      simp only [List.length_cons]; omega
    unfold SetCells.loop
    simp only
    rw [htake, List.take_succ_cons, expectedWrites_cons,
      cellPosition_eq startX startY width k x y c hx0 hxw hk, hlen]
    by_cases hwrap : x + 1 > width
    · rw [if_pos hwrap]
      have hk1 : ((k + 1 : ℕ) : ℤ) = (y + 1) * (width + 1) + 0 := by
        push_cast; rw [hk]; ring_nf; omega
      by_cases hstop : height ≠ 0 ∧ y + 1 ≥ height
      · rw [if_pos hstop]
        have hy1 : y + 1 = height := by omega
        have hz : (height * (width + 1) - ((k + 1 : ℕ) : ℤ)).toNat = 0 := by
          rw [hk1, hy1]; simp
        have hle : height * (width + 1) ≤ ((k + 1 + rest.length : ℕ) : ℤ) := by
          have : ((k + 1 + rest.length : ℕ) : ℤ) = ((k + 1 : ℕ) : ℤ) + rest.length := by
            push_cast; ring
          rw [this, hk1, hy1]
          have : (0 : ℤ) ≤ rest.length := by positivity
          linarith
        rw [hz, if_pos hle, hy1]
        simp [expectedWrites]
      · rw [if_neg hstop]
        rw [ih (k + 1) 0 (y + 1) _ (le_refl _) hw hk1 (by omega)]
        simp
    · rw [if_neg hwrap]
      rw [ih (k + 1) (x + 1) y _ (by omega) (by omega) (by push_cast; rw [hk]; ring) hy]
      simp

theorem SetCells_unbounded (cells : List Cell) (startX startY width : ℤ) (hw : 0 ≤ width) :
    SetCells cells startX startY width 0 =
      (expectedWrites startX startY width 0 cells, (cells.length : ℤ) / (width + 1) + 1) := by
  unfold SetCells
  rw [SetCells_loop_unbounded startX startY width hw cells 0 0 0 [] (le_refl _) hw (by simp)]
  simp

theorem SetCells_bounded (cells : List Cell) (startX startY width height : ℤ)
    (hw : 0 ≤ width) (hh : 1 ≤ height) :
    SetCells cells startX startY width height =
      (expectedWrites startX startY width 0 (cells.take (height * (width + 1)).toNat),
        if height * (width + 1) ≤ (cells.length : ℤ) then height
        else (cells.length : ℤ) / (width + 1) + 1) := by
  unfold SetCells
  rw [SetCells_loop_bounded startX startY width height hw hh cells 0 0 0 []
    (le_refl _) hw (by simp) (by omega)]
  simp

theorem expectedWrites_getElem? (startX startY width : ℤ) (cells : List Cell) (i : ℕ) :
    (expectedWrites startX startY width 0 cells)[i]? =
      cells[i]?.map (fun c => cellPosition startX startY width i c) := by
  unfold expectedWrites
  rw [List.getElem?_map, List.getElem?_enumFrom]
  cases cells[i]? <;> simp

theorem expectedWrites_cells (startX startY width : ℤ) (k : ℕ) (cells : List Cell) :
    (expectedWrites startX startY width k cells).map CellWrite.cell = cells := by
  induction cells generalizing k with
  | nil => rfl
  | cons c rest ih =>
    rw [expectedWrites_cons, List.map_cons, ih]
    rfl

theorem expectedWrites_length (startX startY width : ℤ) (k : ℕ) (cells : List Cell) :
    (expectedWrites startX startY width k cells).length = cells.length := by
  unfold expectedWrites
  simp

/-- C18 (amended): with `height = 0` and a width `w ≥ 0`, `SetCells` writes all `n` cells in
input order; cell `i` (0-based) is written at the column `startX + (i mod (w+1))` and the row
`startY + (i div (w+1))`, both sums computed in 64-bit wrapping arithmetic, so they are the
mathematical sums whenever those lie in the range of `int`. -/
theorem SetCells_unbounded_writes (cells : List Cell) (startX startY width : ℤ)
    (hw : 0 ≤ width) :
    (SetCells cells startX startY width 0).1.length = cells.length ∧
      (SetCells cells startX startY width 0).1.map CellWrite.cell = cells ∧
      (∀ (i : ℕ) (c : Cell), cells[i]? = some c →
        (SetCells cells startX startY width 0).1[i]? =
          some ⟨wrapInt ((i : ℤ) % (width + 1) + startX),
            wrapInt ((i : ℤ) / (width + 1) + startY), c⟩) ∧
      (∀ i : ℕ, -2 ^ 63 ≤ startX + (i : ℤ) % (width + 1) →
        startX + (i : ℤ) % (width + 1) < 2 ^ 63 →
        wrapInt ((i : ℤ) % (width + 1) + startX) = startX + (i : ℤ) % (width + 1)) ∧
      ∀ i : ℕ, -2 ^ 63 ≤ startY + (i : ℤ) / (width + 1) →
        startY + (i : ℤ) / (width + 1) < 2 ^ 63 →
        wrapInt ((i : ℤ) / (width + 1) + startY) = startY + (i : ℤ) / (width + 1) := by
  rw [SetCells_unbounded cells startX startY width hw]
  refine ⟨expectedWrites_length _ _ _ _ _, expectedWrites_cells _ _ _ _ _, ?_, ?_, ?_⟩
  · intro i c hc
    simp only
    rw [expectedWrites_getElem?, hc]
    rfl
  · intro i h0 h1
    rw [add_comm]
    exact wrapInt_of_inRange _ h0 h1
  · intro i h0 h1
    rw [add_comm]
    exact wrapInt_of_inRange _ h0 h1

/-- C18, at a concrete input: three cells at width `1` go to the columns `5, 6, 5` and the rows
`7, 7, 8` when the start position is `(5, 7)`. -/
theorem SetCells_unbounded_writes_witness :
    (0 : ℤ) ≤ 1 ∧
      (SetCells threeCells 5 7 1 0).1 =
        [⟨5, 7, ⟨'a', 0, 0⟩⟩, ⟨6, 7, ⟨'b', 0, 0⟩⟩, ⟨5, 8, ⟨'c', 0, 0⟩⟩] ∧
      (SetCells threeCells 5 7 1 0).1.map CellWrite.cell = threeCells :=
  ⟨by decide, by decide, (SetCells_unbounded_writes threeCells 5 7 1 (by decide)).2.1⟩

/-- C18, counterexample to the claim as stated: with `startX = 2 ^ 63 - 1` the column of the
second cell, `startX + 1`, overflows: it is written at the column `-2 ^ 63`, not `2 ^ 63`. -/
theorem SetCells_unbounded_counterexample :
    (SetCells twoCells (2 ^ 63 - 1) 0 1 0).1 =
        [⟨2 ^ 63 - 1, 0, ⟨'a', 0, 0⟩⟩, ⟨-2 ^ 63, 0, ⟨'b', 0, 0⟩⟩] ∧
      (2 ^ 63 - 1 : ℤ) + ((1 : ℕ) : ℤ) % (1 + 1) = 2 ^ 63 ∧ (-2 ^ 63 : ℤ) ≠ 2 ^ 63 := by
  refine ⟨by decide, by decide, by decide⟩

/-- C19: with `height = 0` and a width `w ≥ 0`, `SetCells` returns `n div (w+1) + 1` for `n`
cells, while the cells occupy the row offsets `0, …, (n-1) div (w+1)`: cell `i` is written at
the row offset `i div (w+1)`. -/
theorem SetCells_returns (cells : List Cell) (startX startY width : ℤ) (hw : 0 ≤ width) :
    (SetCells cells startX startY width 0).2 = (cells.length : ℤ) / (width + 1) + 1 ∧
      ∀ (i : ℕ) (write : CellWrite),
        (SetCells cells startX startY width 0).1[i]? = some write →
          write.y = wrapInt ((i : ℤ) / (width + 1) + startY) ∧
          (i : ℤ) / (width + 1) ≤ ((cells.length : ℤ) - 1) / (width + 1) := by
  rw [SetCells_unbounded cells startX startY width hw]
  refine ⟨rfl, ?_⟩
  intro i write hwr
  simp only at hwr
  rw [expectedWrites_getElem?] at hwr
  cases hc : cells[i]? with
  | none => rw [hc] at hwr; simp at hwr
  | some c =>
    rw [hc] at hwr
    simp only [Option.map_some', Option.some.injEq] at hwr
    subst hwr
    refine ⟨rfl, ?_⟩
    have hi : i < cells.length := (List.getElem?_eq_some_iff.mp hc).1
    exact Int.ediv_le_ediv (by omega) (by omega)

/-- C19, at the failing input: two cells at width `1` fill the row `0` (columns `0` and `1`),
one distinct row, and `SetCells` returns `2`. -/
theorem SetCells_returns_witness :
    (0 : ℤ) ≤ 1 ∧ (SetCells twoCells 0 0 1 0).2 = 2 ∧
      (SetCells twoCells 0 0 1 0).1 = [⟨0, 0, ⟨'a', 0, 0⟩⟩, ⟨1, 0, ⟨'b', 0, 0⟩⟩] ∧
      distinctRows (SetCells twoCells 0 0 1 0).1 = 1 := by
  refine ⟨by decide, ?_, by decide, by decide⟩
  rw [(SetCells_returns twoCells 0 0 1 (by decide)).1]
  decide

theorem expectedWrites_row (startX startY width : ℤ) (cells : List Cell) (i : ℕ)
    (write : CellWrite) (h : (expectedWrites startX startY width 0 cells)[i]? = some write) :
    i < cells.length ∧ write.x = wrapInt ((i : ℤ) % (width + 1) + startX) ∧
      write.y = wrapInt ((i : ℤ) / (width + 1) + startY) ∧ cells[i]? = some write.cell := by
  rw [expectedWrites_getElem?] at h
  cases hc : cells[i]? with
  | none => rw [hc] at h; simp at h
  | some c =>
    rw [hc] at h
    simp only [Option.map_some', Option.some.injEq] at h
    subst h
    exact ⟨(List.getElem?_eq_some_iff.mp hc).1, rfl, rfl, rfl⟩

theorem wrapInt_row_inRange (startY r bound : ℤ) (hr0 : 0 ≤ r) (hr : r < bound)
    (h0 : -2 ^ 63 ≤ startY) (h1 : startY + bound ≤ 2 ^ 63) :
    startY ≤ wrapInt (r + startY) ∧ wrapInt (r + startY) < startY + bound := by
  rw [wrapInt_of_inRange (r + startY) (by omega) (by omega)]
  constructor <;> omega

/-- C15 (amended): for a width `w ≥ 0` and a height `h ≥ 1`, `SetCells` writes the first
`min (n, h * (w+1))` cells, in order, and stops there without an error; every written cell has
a row offset below `h`, its row being `startY` plus that offset in 64-bit wrapping arithmetic
(so in `[startY, startY + h)` whenever that interval lies in the range of `int`); the returned
value is `h` when the writing was cut short or the last row was filled, `n div (w+1) + 1`
otherwise, and in both cases at most `h`. -/
theorem SetCells_bounded_writes (cells : List Cell) (startX startY width height : ℤ)
    (hw : 0 ≤ width) (hh : 1 ≤ height) :
    (SetCells cells startX startY width height).1.map CellWrite.cell =
        cells.take (height * (width + 1)).toNat ∧
      (∀ (i : ℕ) (write : CellWrite),
        (SetCells cells startX startY width height).1[i]? = some write →
          0 ≤ (i : ℤ) / (width + 1) ∧ (i : ℤ) / (width + 1) < height ∧
          write.x = wrapInt ((i : ℤ) % (width + 1) + startX) ∧
          write.y = wrapInt ((i : ℤ) / (width + 1) + startY) ∧
          (-2 ^ 63 ≤ startY → startY + height ≤ 2 ^ 63 →
            startY ≤ write.y ∧ write.y < startY + height)) ∧
      (SetCells cells startX startY width height).2 ≤ height ∧
      (SetCells cells startX startY width height).2 =
        if height * (width + 1) ≤ (cells.length : ℤ) then height
        else (cells.length : ℤ) / (width + 1) + 1 := by
  rw [SetCells_bounded cells startX startY width height hw hh]
  have hm : 0 < width + 1 := by omega
  refine ⟨expectedWrites_cells _ _ _ _ _, ?_, ?_, rfl⟩
  · intro i write hwr
    simp only at hwr
    obtain ⟨hi, hx, hy, _⟩ := expectedWrites_row _ _ _ _ _ _ hwr
    have hi2 : (i : ℤ) < height * (width + 1) := by
      have := List.length_take_le (height * (width + 1)).toNat cells
      have hpos : 0 ≤ height * (width + 1) := by positivity
      omega
    have hr0 : 0 ≤ (i : ℤ) / (width + 1) := Int.ediv_nonneg (by positivity) (by omega)
    have hr : (i : ℤ) / (width + 1) < height := Int.ediv_lt_of_lt_mul hm hi2
    refine ⟨hr0, hr, hx, hy, ?_⟩
    intro h0 h1
    rw [hy]
    exact wrapInt_row_inRange startY _ height hr0 hr h0 h1
  · simp only
    split_ifs with hc
    · exact le_refl _
    · have : (cells.length : ℤ) / (width + 1) < height :=
        Int.ediv_lt_of_lt_mul hm (by omega)
      omega

/-- C15, at a concrete input: three cells at width `0` and height `2` from the start position
`(5, 7)`: the first two cells are written, on the rows `7` and `8`, and `2` is returned. -/
theorem SetCells_bounded_writes_witness :
    (0 : ℤ) ≤ 0 ∧ (1 : ℤ) ≤ 2 ∧
      (SetCells threeCells 5 7 0 2).1 = [⟨5, 7, ⟨'a', 0, 0⟩⟩, ⟨5, 8, ⟨'b', 0, 0⟩⟩] ∧
      (SetCells threeCells 5 7 0 2).2 ≤ 2 :=
  ⟨by decide, by decide, by decide,
    (SetCells_bounded_writes threeCells 5 7 0 2 (by decide) (by decide)).2.2.1⟩

/-- C15, counterexample to the claim as stated: with `startY = 2 ^ 63 - 1`, width `0` and
height `2` the second cell has the row offset `1` and the sum `startY + 1` overflows: it is
written on the row `-2 ^ 63`, which is not in `[startY, startY + 2)`. -/
theorem SetCells_bounded_counterexample :
    (SetCells twoCells 0 (2 ^ 63 - 1) 0 2).1 =
        [⟨0, 2 ^ 63 - 1, ⟨'a', 0, 0⟩⟩, ⟨0, -2 ^ 63, ⟨'b', 0, 0⟩⟩] ∧
      ¬ ((2 ^ 63 - 1 : ℤ) ≤ -2 ^ 63 ∧ (-2 ^ 63 : ℤ) < (2 ^ 63 - 1) + 2) := by
  refine ⟨by decide, by decide⟩

/-- C20 (amended): for fewer than `2 ^ 53` cells and a width `w ≥ 1`, every cell that
`SetCells(cells, startX, startY, w, 0)` writes has a row offset strictly below
`HeightRequired(n, w)`; its row is `startY` plus that offset in 64-bit wrapping arithmetic, so
it lies in `[startY, startY + HeightRequired(n, w))` whenever that interval lies in the range
of `int`. -/
theorem SetCells_within_HeightRequired (cells : List Cell) (startX startY width : ℤ)
    (hw : 1 ≤ width) (hn : (cells.length : ℤ) < 2 ^ 53) (i : ℕ) (write : CellWrite)
    (hwr : (SetCells cells startX startY width 0).1[i]? = some write) :
    0 ≤ (i : ℤ) / (width + 1) ∧
      (i : ℤ) / (width + 1) < HeightRequired cells.length width ∧
      write.y = wrapInt ((i : ℤ) / (width + 1) + startY) ∧
      (-2 ^ 63 ≤ startY → startY + HeightRequired cells.length width ≤ 2 ^ 63 →
        startY ≤ write.y ∧ write.y < startY + HeightRequired cells.length width) := by
  rw [SetCells_unbounded cells startX startY width (by omega)] at hwr
  simp only at hwr
  obtain ⟨hi, _, hy, _⟩ := expectedWrites_row _ _ _ _ _ _ hwr
  have hm : 0 < width + 1 := by omega
  have hr0 : 0 ≤ (i : ℤ) / (width + 1) := Int.ediv_nonneg (by positivity) (by omega)
  have hr : (i : ℤ) / (width + 1) < HeightRequired cells.length width := by
    rw [HeightRequired_ceil cells.length width (by positivity) hn (by omega), Int.lt_ceil]
    have hwq : (0 : ℚ) < width := by exact_mod_cast (by omega : (0 : ℤ) < width)
    rw [lt_div_iff₀ hwq]
    have h1 : (i : ℤ) / (width + 1) * (width + 1) ≤ i := Int.ediv_mul_le _ (by omega)
    have h2 : (i : ℤ) / (width + 1) * width < cells.length := by nlinarith
    exact_mod_cast h2
  refine ⟨hr0, hr, hy, ?_⟩
  intro h0 h1
  rw [hy]
  exact wrapInt_row_inRange startY _ _ hr0 hr h0 h1

/-- C20, at a concrete input: three cells at width `1` from the row `7`: the last cell is on
the row `8`, below `7 + HeightRequired(3, 1)`. -/
theorem SetCells_within_HeightRequired_witness :
    (1 : ℤ) ≤ 1 ∧ ((threeCells.length : ℕ) : ℤ) < 2 ^ 53 ∧
      (SetCells threeCells 5 7 1 0).1[2]? = some ⟨5, 8, ⟨'c', 0, 0⟩⟩ ∧
      ((2 : ℕ) : ℤ) / (1 + 1) < HeightRequired threeCells.length 1 :=
  ⟨by decide, by decide, by decide,
    (SetCells_within_HeightRequired threeCells 5 7 1 (by decide) (by decide) 2
      ⟨5, 8, ⟨'c', 0, 0⟩⟩ (by decide)).2.1⟩

theorem roundFloat64_binade53 (n : ℤ) (h1 : 2 ^ 53 ≤ n) (h2 : n < 2 ^ 54) :
    roundFloat64 (n : ℚ) = roundHalfEven ((n : ℚ) / 2) * 2 := by
  have h1q : (2 : ℚ) ^ (53 : ℤ) ≤ n := by
    have : ((2 ^ 53 : ℤ) : ℚ) ≤ ((n : ℤ) : ℚ) := by exact_mod_cast h1
    norm_num at this ⊢
    exact this
  have h2q : (n : ℚ) < (2 : ℚ) ^ (54 : ℤ) := by
    have : ((n : ℤ) : ℚ) < ((2 ^ 54 : ℤ) : ℚ) := by exact_mod_cast h2
    norm_num at this ⊢
    exact this
  have hpos : (0 : ℚ) < n := lt_of_lt_of_le (by positivity) h1q
  have hlog : Int.log 2 (n : ℚ) = 53 := by
    apply le_antisymm
    · have := (Int.lt_zpow_iff_log_lt (b := 2) (by norm_num) (x := 54) (r := (n : ℚ)) hpos).mp h2q
      omega
    · exact (Int.zpow_le_iff_le_log (b := 2) (by norm_num) (x := 53) (r := (n : ℚ)) hpos).mp h1q
  rw [roundFloat64_of_pos hpos]
  unfold roundPos
  simp only
  rw [hlog]
  norm_num

theorem HeightRequired_at_binade53 : HeightRequired (2 ^ 53 + 5) (2 ^ 53 + 3) = 1 := by
  have hn : roundFloat64 (((2 ^ 53 + 5 : ℤ)) : ℚ) = 2 ^ 53 + 4 := by
    rw [roundFloat64_binade53 _ (by norm_num) (by norm_num)]
    have hfl : ⌊(((2 ^ 53 + 5 : ℤ)) : ℚ) / 2⌋ = 2 ^ 52 + 2 := by
      rw [Int.floor_eq_iff]; norm_num
    have : roundHalfEven ((((2 ^ 53 + 5 : ℤ)) : ℚ) / 2) = 2 ^ 52 + 2 := by
      unfold roundHalfEven
      simp only
      rw [hfl]
      norm_num
    rw [this]
    norm_num
  have hw : roundFloat64 (((2 ^ 53 + 3 : ℤ)) : ℚ) = 2 ^ 53 + 4 := by
    rw [roundFloat64_binade53 _ (by norm_num) (by norm_num)]
    have hfl : ⌊(((2 ^ 53 + 3 : ℤ)) : ℚ) / 2⌋ = 2 ^ 52 + 1 := by
      rw [Int.floor_eq_iff]; norm_num
    have : roundHalfEven ((((2 ^ 53 + 3 : ℤ)) : ℚ) / 2) = 2 ^ 52 + 2 := by
      unfold roundHalfEven
      simp only
      rw [hfl]
      norm_num
    rw [this]
    norm_num
  have h1 : roundFloat64 (1 : ℚ) = 1 := by
    have := roundPos_exact 1 (by norm_num) (by norm_num)
    rw [roundFloat64_of_pos (by norm_num)]
    simpa using this
  unfold HeightRequired
  rw [hn, hw, div_self (by norm_num), h1]
  simp

theorem SetCells_unbounded_getElem? (cells : List Cell) (startX startY width : ℤ)
    (hw : 0 ≤ width) (i : ℕ) (c : Cell) (hc : cells[i]? = some c) :
    (SetCells cells startX startY width 0).1[i]? =
      some (cellPosition startX startY width i c) := by
  rw [SetCells_unbounded cells startX startY width hw]
  simp only
  rw [expectedWrites_getElem?, hc]
  rfl

/-- C20, counterexamples to the claim as stated.  With `2 ^ 53 + 5` cells at the width
`2 ^ 53 + 3` both conversions to `float64` round to `2 ^ 53 + 4`, so `HeightRequired` is `1`,
while the last cell is written at the row offset `1`.  With three cells at width `1` and
`startY = 2 ^ 63 - 1` the last cell has the row offset `1 < HeightRequired(3, 1) = 3`, but
the sum `startY + 1` overflows and the cell is written on the row `-2 ^ 63`, which is not in
`[startY, startY + 3)`. -/
theorem SetCells_within_HeightRequired_counterexample :
    ((List.replicate (2 ^ 53 + 5) (default : Cell)).length = 2 ^ 53 + 5 ∧
        HeightRequired (2 ^ 53 + 5) (2 ^ 53 + 3) = 1 ∧
        (SetCells (List.replicate (2 ^ 53 + 5) default) 0 0 (2 ^ 53 + 3) 0).1[2 ^ 53 + 4]? =
          some ⟨0, 1, default⟩) ∧
      (HeightRequired 3 1 = 3 ∧
        (SetCells threeCells 0 (2 ^ 63 - 1) 1 0).1[2]? = some ⟨0, -2 ^ 63, ⟨'c', 0, 0⟩⟩ ∧
        ¬ ((2 ^ 63 - 1 : ℤ) ≤ -2 ^ 63)) := by
  refine ⟨⟨List.length_replicate _ _, HeightRequired_at_binade53, ?_⟩, ?_, by decide, by decide⟩
  · rw [SetCells_unbounded_getElem? _ 0 0 (2 ^ 53 + 3) (by norm_num) (2 ^ 53 + 4) default
      (List.getElem?_replicate_of_lt (by norm_num))]
    unfold cellPosition wrapInt
    norm_num
  · rw [HeightRequired_ceil 3 1 (by norm_num) (by norm_num) (by norm_num), Int.ceil_eq_iff]
    norm_num


/-! ## `CreateHeader` and `CreateWindow` -/

theorem mapOption_spec {α β : Type} (f : α → Option β) :
    ∀ (l : List α), (∀ a ∈ l, ∃ b, f a = some b) →
      ∃ bs, mapOption f l = some bs ∧ bs.length = l.length ∧
        ∀ (i : ℕ) (a : α), l[i]? = some a → ∃ b, bs[i]? = some b ∧ f a = some b := by
  intro l
  induction l with
  | nil => intro _; exact ⟨[], rfl, rfl, fun i a h => by simp at h⟩
  | cons a l ih =>
    intro h
    obtain ⟨b, hb⟩ := h a (by simp)
    obtain ⟨bs, hbs, hlen, hget⟩ := ih (fun x hx => h x (by simp [hx]))
    refine ⟨b :: bs, by simp [mapOption, hb, hbs], by simp [hlen], ?_⟩
    intro i x hx
    cases i with
    | zero =>
      simp only [List.getElem?_cons_zero, Option.some.injEq] at hx
      subst hx
      exact ⟨b, by simp, hb⟩
    | succ i =>
      simp only [List.getElem?_cons_succ] at hx ⊢
      exact hget i x hx

theorem title_index (runeSlice : List Char) (start c : ℤ) (h0 : start ≤ c)
    (h1 : c < start + runeSlice.length) :
    ∃ ch, index runeSlice (c - start) = some ch ∧ runeSlice[(c - start).toNat]? = some ch ∧
      0 ≤ c - start ∧ c - start < runeSlice.length := by
  obtain ⟨ch, h, hget⟩ := index_of_inRange runeSlice (c - start) (by omega) (by omega)
  exact ⟨ch, h, hget, by omega, by omega⟩

theorem CreateHeader_cell_spec (runeSlice : List Char) (start : ℤ) (c : ℕ) :
    ∃ write, CreateHeader.cell runeSlice start runeSlice.length c = some write ∧
      write.x = c ∧ write.y = 0 ∧
      (start ≤ c ∧ (c : ℤ) < start + runeSlice.length →
        0 ≤ (c : ℤ) - start ∧ (c : ℤ) - start < runeSlice.length ∧
        runeSlice[((c : ℤ) - start).toNat]? = some write.cell.Ch) ∧
      (¬ (start ≤ c ∧ (c : ℤ) < start + runeSlice.length) → write.cell.Ch = '=') := by
  unfold CreateHeader.cell
  by_cases h : (c : ℤ) ≥ start ∧ (c : ℤ) < start + runeSlice.length
  · rw [if_pos h]
    obtain ⟨ch, hidx, hget, h0, h1⟩ := title_index runeSlice start c h.1 h.2
    rw [hidx]
    exact ⟨_, rfl, rfl, rfl, fun _ => ⟨h0, h1, hget⟩, fun hn => absurd ⟨h.1, h.2⟩ hn⟩
  · rw [if_neg h]
    exact ⟨_, rfl, rfl, rfl, fun hp => absurd ⟨hp.1, hp.2⟩ h, fun _ => rfl⟩

theorem CreateWindow_char_spec (runeSlice : List Char) (start width height : ℤ) (c : ℕ) :
    ∃ ch, CreateWindow.char runeSlice start runeSlice.length width height c 0 = some ch ∧
      (start ≤ c ∧ (c : ℤ) < start + runeSlice.length →
        0 ≤ (c : ℤ) - start ∧ (c : ℤ) - start < runeSlice.length ∧
        runeSlice[((c : ℤ) - start).toNat]? = some ch) ∧
      (¬ (start ≤ c ∧ (c : ℤ) < start + runeSlice.length) →
        ch = if (c : ℤ) = 0 ∨ (c : ℤ) = width then '|' else '-') := by
  unfold CreateWindow.char
  by_cases h : (c : ℤ) ≥ start ∧ (c : ℤ) < start + runeSlice.length ∧ (0 : ℤ) = 0
  · rw [if_pos h]
    obtain ⟨ch, hidx, hget, h0, h1⟩ := title_index runeSlice start c h.1 h.2.1
    exact ⟨ch, hidx, fun _ => ⟨h0, h1, hget⟩, fun hn => absurd ⟨h.1, h.2.1⟩ hn⟩
  · rw [if_neg h]
    have hn : ¬ (start ≤ c ∧ (c : ℤ) < start + runeSlice.length) :=
      fun hp => h ⟨hp.1, hp.2, rfl⟩
    by_cases hb : (c : ℤ) = 0 ∨ (c : ℤ) = width
    · rw [if_pos hb]
      exact ⟨'|', rfl, fun hp => absurd hp hn, fun _ => by rw [if_pos hb]⟩
    · rw [if_neg hb, if_pos (Or.inl rfl)]
      exact ⟨'-', rfl, fun hp => absurd hp hn, fun _ => by rw [if_neg hb]⟩

theorem CreateWindow_char_total (runeSlice : List Char) (start width height : ℤ)
    (curX curY : ℕ) :
    ∃ ch, CreateWindow.char runeSlice start runeSlice.length width height curX curY =
      some ch := by
  unfold CreateWindow.char
  by_cases h : (curX : ℤ) ≥ start ∧ (curX : ℤ) < start + runeSlice.length ∧ (curY : ℤ) = 0
  · rw [if_pos h]
    obtain ⟨ch, hidx, _⟩ := title_index runeSlice start curX h.1 h.2.1
    exact ⟨ch, hidx⟩
  · rw [if_neg h]
    split_ifs <;> exact ⟨_, rfl⟩

theorem tdiv_two_eq (a : ℤ) (h : 0 ≤ a) : a.tdiv 2 = a / 2 :=
  Int.tdiv_eq_ediv h (by norm_num)

/-- C17, centered title placement: with `start = width/2 - titleLength/2`, `CreateHeader`
(over the terminal width `sizeX`) writes at every column `c < sizeX` of row `0` the title
codepoint number `c - start` when `start ≤ c < start + titleLength`, and `'='` otherwise; the
title row of `CreateWindow` (the first call of every column `c ≤ width`) gets the title
codepoint number `c - start` when `start ≤ c < start + titleLength`, and otherwise the border
character, `'|'` at the columns `0` and `width`, `'-'` between them.  The title lookup index
`c - start` is within `[0, titleLength)` whenever it is used, and neither function panics,
also when the title is longer than the width. -/
theorem title_placement (title : String) (sizeX startX startY width height : ℤ)
    (color : Attribute) :
    (∃ ws, CreateHeader title sizeX = some ws ∧ ws.length = sizeX.toNat ∧
      ∀ c : ℕ, (c : ℤ) < sizeX → ∃ write, ws[c]? = some write ∧
        write.x = c ∧ write.y = 0 ∧
        (sizeX / 2 - (title.toList.length : ℤ) / 2 ≤ c ∧
            (c : ℤ) < sizeX / 2 - (title.toList.length : ℤ) / 2 + title.toList.length →
          0 ≤ (c : ℤ) - (sizeX / 2 - (title.toList.length : ℤ) / 2) ∧
          (c : ℤ) - (sizeX / 2 - (title.toList.length : ℤ) / 2) < title.toList.length ∧
          title.toList[((c : ℤ) - (sizeX / 2 - (title.toList.length : ℤ) / 2)).toNat]? =
            some write.cell.Ch) ∧
        (¬ (sizeX / 2 - (title.toList.length : ℤ) / 2 ≤ c ∧
            (c : ℤ) < sizeX / 2 - (title.toList.length : ℤ) / 2 + title.toList.length) →
          write.cell.Ch = '=')) ∧
      ∃ cols, CreateWindow.columns title startX startY width height color = some cols ∧
        CreateWindow title startX startY width height color = some cols.flatten ∧
        cols.length = (width + 1).toNat ∧
        (0 ≤ height → ∀ c : ℕ, (c : ℤ) ≤ width → ∃ col write, cols[c]? = some col ∧
          col[0]? = some write ∧
          write.x = wrapInt (c + startX) ∧ write.y = wrapInt (0 + startY) ∧
          (width / 2 - (title.toList.length : ℤ) / 2 ≤ c ∧
              (c : ℤ) < width / 2 - (title.toList.length : ℤ) / 2 + title.toList.length →
            0 ≤ (c : ℤ) - (width / 2 - (title.toList.length : ℤ) / 2) ∧
            (c : ℤ) - (width / 2 - (title.toList.length : ℤ) / 2) < title.toList.length ∧
            title.toList[((c : ℤ) - (width / 2 - (title.toList.length : ℤ) / 2)).toNat]? =
              some write.cell.Ch) ∧
          (¬ (width / 2 - (title.toList.length : ℤ) / 2 ≤ c ∧
              (c : ℤ) < width / 2 - (title.toList.length : ℤ) / 2 + title.toList.length) →
            write.cell.Ch = if (c : ℤ) = 0 ∨ (c : ℤ) = width then '|' else '-')) := by
  have hlen0 : (0 : ℤ) ≤ (title.toList.length : ℤ) := by positivity
  constructor
  · -- the header
    obtain ⟨ws, hws, hlen, hget⟩ := mapOption_spec
      (fun i : ℕ => CreateHeader.cell title.toList
        (sizeX.tdiv 2 - (title.toList.length : ℤ).tdiv 2) title.toList.length i)
      (List.range sizeX.toNat)
      (fun a _ => by
        obtain ⟨w, hw, _⟩ := CreateHeader_cell_spec title.toList
          (sizeX.tdiv 2 - (title.toList.length : ℤ).tdiv 2) a
        exact ⟨w, hw⟩)
    refine ⟨ws, hws, by simpa using hlen, ?_⟩
    intro c hc
    have hc2 : c < sizeX.toNat := by omega
    obtain ⟨b, hb, hfb⟩ := hget c c (by rw [List.getElem?_range hc2])
    obtain ⟨w, hw, hx, hy, hin, hout⟩ := CreateHeader_cell_spec title.toList
      (sizeX.tdiv 2 - (title.toList.length : ℤ).tdiv 2) c
    have hfb2 : CreateHeader.cell title.toList
        (sizeX.tdiv 2 - (title.toList.length : ℤ).tdiv 2) title.toList.length c = some b := hfb
    rw [hw] at hfb2
    have hwb : w = b := Option.some.inj hfb2
    rw [tdiv_two_eq sizeX (by omega), tdiv_two_eq _ hlen0] at hin hout
    rw [hwb] at hx hy hin hout
    exact ⟨b, hb, hx, hy, hin, hout⟩
  · -- the window
    have hcol : ∀ a : ℕ, ∃ col, CreateWindow.column title.toList
        (width.tdiv 2 - (title.toList.length : ℤ).tdiv 2) title.toList.length
        startX startY width height color a = some col ∧
        (0 ≤ height → ∃ write, col[0]? = some write ∧
          ∃ ch, CreateWindow.char title.toList
            (width.tdiv 2 - (title.toList.length : ℤ).tdiv 2) title.toList.length
            width height a 0 = some ch ∧
          write = ⟨wrapInt (a + startX), wrapInt (0 + startY), ⟨ch, ColorDefault, color⟩⟩) := by
      intro a
      obtain ⟨col, hcol, _, hget⟩ := mapOption_spec
        (fun curY : ℕ =>
          (CreateWindow.char title.toList
            (width.tdiv 2 - (title.toList.length : ℤ).tdiv 2) title.toList.length
            width height a curY).map
            (fun ch => (⟨wrapInt (a + startX), wrapInt (curY + startY),
              ⟨ch, ColorDefault, color⟩⟩ : CellWrite)))
        (List.range (height + 1).toNat)
        (fun y _ => by
          obtain ⟨ch, hch⟩ := CreateWindow_char_total title.toList
            (width.tdiv 2 - (title.toList.length : ℤ).tdiv 2) width height a y
          refine ⟨⟨wrapInt (a + startX), wrapInt (y + startY), ⟨ch, ColorDefault, color⟩⟩, ?_⟩
          beta_reduce
          rw [hch]
          rfl)
      refine ⟨col, hcol, ?_⟩
      intro hh
      obtain ⟨b, hb, hfb⟩ := hget 0 0 (by rw [List.getElem?_range (by omega)])
      obtain ⟨ch, hch⟩ := CreateWindow_char_total title.toList
        (width.tdiv 2 - (title.toList.length : ℤ).tdiv 2) width height a 0
      refine ⟨b, hb, ch, by simpa using hch, ?_⟩
      have hfb2 : (CreateWindow.char title.toList
          (width.tdiv 2 - (title.toList.length : ℤ).tdiv 2) title.toList.length
          width height a ((0 : ℕ) : ℤ)).map
          (fun ch => (⟨wrapInt (a + startX), wrapInt (((0 : ℕ) : ℤ) + startY),
            ⟨ch, ColorDefault, color⟩⟩ : CellWrite)) = some b := hfb
      rw [hch] at hfb2
      simp only [Option.map_some', Option.some.injEq] at hfb2
      rw [← hfb2]
      simp
    obtain ⟨cols, hcols, hlen, hget⟩ := mapOption_spec
      (CreateWindow.column title.toList
        (width.tdiv 2 - (title.toList.length : ℤ).tdiv 2) title.toList.length
        startX startY width height color)
      (List.range (width + 1).toNat)
      (fun a _ => by
        obtain ⟨col, hc, _⟩ := hcol a
        exact ⟨col, hc⟩)
    have hcolumns : CreateWindow.columns title startX startY width height color = some cols :=
      hcols
    refine ⟨cols, hcolumns, by unfold CreateWindow; rw [hcolumns]; rfl,
      by simpa using hlen, ?_⟩
    intro hh c hc
    obtain ⟨col, hcolget, hfcol⟩ := hget c c (by rw [List.getElem?_range (by omega)])
    obtain ⟨col2, hcol2, hrow⟩ := hcol c
    rw [hcol2] at hfcol
    have hcc : col2 = col := Option.some.inj hfcol
    obtain ⟨write, hwrite, ch, hch, hdef⟩ := hrow hh
    obtain ⟨ch2, hch2, hin, hout⟩ := CreateWindow_char_spec title.toList
      (width.tdiv 2 - (title.toList.length : ℤ).tdiv 2) width height c
    rw [hch] at hch2
    have hchch : ch = ch2 := Option.some.inj hch2
    rw [tdiv_two_eq width (by omega), tdiv_two_eq _ hlen0] at hin hout
    rw [hcc] at hwrite
    have hx : write.x = wrapInt (c + startX) := by rw [hdef]
    have hy : write.y = wrapInt (0 + startY) := by rw [hdef]
    have hc2 : write.cell.Ch = ch2 := by rw [hdef, hchch]
    rw [← hc2] at hin hout
    exact ⟨col, write, hcolget, hwrite, hx, hy, hin, hout⟩

/-- C17, at concrete inputs: the header `"Hi"` over six columns is `==Hi==`; the header
`"Hello"` over three columns shows the title codepoints `1, 2, 3`; the title row of a window of
width `5` titled `"Hi"` is `|Hi--|`; and column `3` of the first header carries title codepoint
number `3 - 2 = 1`. -/
theorem title_placement_witness :
    (CreateHeader "Hi" 6).map (fun ws => ws.map (fun w => w.cell.Ch)) = some "==Hi==".toList ∧
      (CreateHeader "Hello" 3).map (fun ws => ws.map (fun w => w.cell.Ch)) =
        some "ell".toList ∧
      (CreateWindow.columns "Hi" 0 0 5 1 0).map
          (fun cols => cols.map (fun col => col.head?.map (fun w => w.cell.Ch))) =
        some [some '|', some 'H', some 'i', some '-', some '-', some '|'] ∧
      ∃ ws write, CreateHeader "Hi" 6 = some ws ∧ ws[3]? = some write ∧
        "Hi".toList[1]? = some write.cell.Ch := by
  refine ⟨by decide, by decide, by decide, ?_⟩
  obtain ⟨ws, hws, _, hget⟩ := (title_placement "Hi" 6 0 0 5 1 0).1
  obtain ⟨write, hw, _, _, hin, _⟩ := hget 3 (by decide)
  exact ⟨ws, write, hws, hw, (hin (by decide)).2.2⟩


/-! ## `OptionsHeight` and `Rebuild` -/

theorem FilteredOptions_frame (sortFn : (Ptr → Ptr → Bool) → List Ptr → List Ptr)
    (lower : Char → Char) (lw : MenuWindow) :
    (lw.FilteredOptions sortFn lower).2.Options = lw.Options ∧
      ∀ p, ((lw.FilteredOptions sortFn lower).2.heap p).Str = (lw.heap p).Str := by
  by_cases h : lw.lastSearch = ""
  · unfold MenuWindow.FilteredOptions
    rw [if_pos h]
    exact ⟨rfl, fun _ => rfl⟩
  · rw [FilteredOptions_search sortFn lower lw h]
    refine ⟨rfl, ?_⟩
    intro p
    simp only
    rw [(FilteredOptions_loop_spec lower (tokens lw.lastSearch) lw.Options lw.heap []).2 p]
    split_ifs <;> rfl

/-- C16: the value `requiredHeight` that `Rebuild` uses to decide whether to scroll is
`OptionsHeight` of the whole option list: the sum of the wrap-heights of all options, whatever
the search string, not of the filtered ones. -/
theorem Rebuild_requiredHeight (sortFn : (Ptr → Ptr → Bool) → List Ptr → List Ptr)
    (lower : Char → Char) (wrapHeight : String → ℤ → ℤ) (rectW : ℤ) (lw : MenuWindow) :
    MenuWindow.Rebuild.requiredHeight sortFn lower wrapHeight rectW lw =
      lw.Options.foldl (fun h v => wrapInt (h + wrapHeight (lw.heap v).Str rectW)) 0 := by
  obtain ⟨ho, hs⟩ := FilteredOptions_frame sortFn lower lw
  unfold MenuWindow.Rebuild.requiredHeight MenuWindow.OptionsHeight
  rw [ho]
  simp only [hs]

/-- C16, at the failing input: with the options `["Apple", "Banana", "Pineapple"]`, the search
string `"ap"` and every label one row high, the filtered options are Apple and Pineapple, with
the total height `2`, and `requiredHeight` is `3`. -/
theorem Rebuild_requiredHeight_witness :
    (appleWindow.FilteredOptions insertionSortFn Char.toLower).1 = [0, 2] ∧
      filteredHeight insertionSortFn Char.toLower (fun _ _ => 1) 80 appleWindow = 2 ∧
      MenuWindow.Rebuild.requiredHeight insertionSortFn Char.toLower (fun _ _ => 1) 80
        appleWindow = 3 := by
  refine ⟨by decide, by decide, ?_⟩
  rw [Rebuild_requiredHeight]
  decide

end Discorder
